import Mathlib

/-!
# GoNBT: the NBT decoder of `read.go`

A shallow embedding of the decoder (`Read`, `readTag`, `ReadCompound`, `ReadList` and the
primitive readers) and theorems about it.

Modelling decisions, all visible in the definitions below:

* The `io.Reader` is the list of bytes not yet consumed.  `binary.Read` is `io.ReadFull`
  followed by a big-endian decode; `r.Read(buf)` is ONE read call with the behaviour of
  `*os.File` on a regular file (the reader used by the repository's test and example).
* `errhandler.Handle` aborts the program when the error is not nil, and a Go run-time panic
  (`make` with a negative size, `reflect` misuse) aborts it as well: both are an `Err`.
* A `reflect.Value` is an `Option Val`: `none` is the invalid (zero) `reflect.Value`.
  A settable location inside the target is the target plus a selector `Sel`.
* The recursion of `readTag` is bounded by a nesting budget; `Err.fuel` is the model's
  "budget exhausted" outcome and is not a behaviour of the program.
* `strings.ToLower` belongs to the Go library. On a string of ASCII bytes it is given in full
  (`asciiLower`). On any other string it depends on the Unicode tables of the Go release, and
  that part is the parameter `ulower` of `toLower`, and through it of `StructFields`, `readTag`
  and `Read`. The general theorems hold for every `ulower`; the statements at concrete inputs,
  all of whose names are ASCII, are written with `noUnicode` in its place.
-/

namespace GoNBT

/-! ## Streams and errors -/

/-- One octet. -/
abbrev Byte := Fin 256

/-- The bytes of the input that have not been consumed yet. -/
abbrev Stream := List Byte

/-- A Go string: a sequence of bytes, with no charset validation. -/
abbrev Name := List Byte

/-- The ways a call can fail to return. `io`: `errhandler.Handle` received an error from the
stream. `panic`: a Go run-time panic. `fuel`: the nesting budget of the model ran out. -/
inductive Err where
  | io
  | panic
  | fuel
  deriving Repr, DecidableEq

/-- The outcome of a call: a value, or the reason it did not return. -/
abbrev Res (α : Type) := Except Err α

instance instDecEqRes {α : Type} [DecidableEq α] : DecidableEq (Res α) := fun a b =>
  match a, b with
  | .ok x, .ok y => if h : x = y then isTrue (by rw [h]) else isFalse (by intro e; cases e; exact h rfl)
  | .error x, .error y =>
    if h : x = y then isTrue (by rw [h]) else isFalse (by intro e; cases e; exact h rfl)
  | .ok _, .error _ => isFalse (by intro e; cases e)
  | .error _, .ok _ => isFalse (by intro e; cases e)

/-- The function `io.ReadFull` on `n` bytes, as `binary.Read` calls it: exactly `n` bytes, or an
error (`io.EOF` / `io.ErrUnexpectedEOF`) when the stream ends first. -/
def readFull : Nat → Stream → Res (List Byte × Stream)
  | 0, r => .ok ([], r)
  | _ + 1, [] => .error .io
  | n + 1, b :: r =>
    match readFull n r with
    | .ok (bs, rest) => .ok (b :: bs, rest)
    | .error e => .error e

/-- One call `r.Read(buf)` with `len(buf) = n` and `buf` freshly made (all zero), on a file:
a zero-length read returns `0, nil`; at the end of the file the call returns `0, io.EOF`;
otherwise it copies the bytes that are there, at most `n`, and returns a nil error.
The result is the buffer after the call (the caller never looks at the count). -/
def readOnce (n : Nat) (r : Stream) : Res (List Byte × Stream) :=
  if n = 0 then .ok ([], r)
  else if r = [] then .error .io
  else .ok (r.take n ++ List.replicate (n - r.length) 0, r.drop n)

/-- Big-endian value of a byte sequence. -/
def beNat (bs : List Byte) : Nat :=
  bs.foldl (fun acc b => acc * 256 + b.val) 0

/-- Two's-complement reading of an unsigned `bits`-bit number. -/
def toSigned (bits : Nat) (n : Nat) : Int :=
  if n < 2 ^ (bits - 1) then (n : Int) else (n : Int) - 2 ^ bits

/-- The call `binary.Read(r, binary.BigEndian, &i)` for a fixed-size `i` of `w` bytes: the
unsigned big-endian number read. -/
def binaryRead (w : Nat) (r : Stream) : Res (Nat × Stream) :=
  match readFull w r with
  | .ok (bs, rest) => .ok (beNat bs, rest)
  | .error e => .error e

/-! ## Tag types -/

/-- A tag's type (`type TagType byte`). -/
abbrev TagType := Nat

def TAG_END : TagType := 0
def TAG_BYTE : TagType := 1
def TAG_SHORT : TagType := 2
def TAG_INT : TagType := 3
def TAG_LONG : TagType := 4
def TAG_FLOAT : TagType := 5
def TAG_DOUBLE : TagType := 6
def TAG_BYTE_ARRAY : TagType := 7
def TAG_STRING : TagType := 8
def TAG_LIST : TagType := 9
def TAG_COMPOUND : TagType := 10
def TAG_INT_ARRAY : TagType := 11
def TAG_UNKNOWN : TagType := 12

/-! ## Primitive readers -/

/-- Reads a single byte. -/
def ReadByte (r : Stream) : Res (Byte × Stream) :=
  match r with
  | [] => .error .io
  | b :: rest => .ok (b, rest)

/-- Reads a signed 16-bit integer. -/
def ReadShort (r : Stream) : Res (Int × Stream) :=
  match binaryRead 2 r with
  | .ok (n, rest) => .ok (toSigned 16 n, rest)
  | .error e => .error e

/-- Reads a signed 32-bit integer. -/
def ReadInt (r : Stream) : Res (Int × Stream) :=
  match binaryRead 4 r with
  | .ok (n, rest) => .ok (toSigned 32 n, rest)
  | .error e => .error e

/-- Reads a signed 64-bit integer. -/
def ReadLong (r : Stream) : Res (Int × Stream) :=
  match binaryRead 8 r with
  | .ok (n, rest) => .ok (toSigned 64 n, rest)
  | .error e => .error e

/-- Reads a 32-bit IEEE-754 value; the result is its bit pattern. -/
def ReadFloat (r : Stream) : Res (Nat × Stream) :=
  binaryRead 4 r

/-- Reads a 64-bit IEEE-754 value; the result is its bit pattern. -/
def ReadDouble (r : Stream) : Res (Nat × Stream) :=
  binaryRead 8 r

/-- The expression `make([]T, n)` for a signed `n`: a run-time panic when `n` is negative. -/
def makeLen (n : Int) : Res Nat :=
  if n < 0 then .error .panic else .ok n.toNat

/-- Reads a byte array: the length (signed 32-bit) first, then ONE `r.Read` into a buffer of
that length. -/
def ReadByteArray (r : Stream) : Res (List Byte × Stream) :=
  match ReadInt r with
  | .error e => .error e
  | .ok (n, r1) =>
    match makeLen n with
    | .error e => .error e
    | .ok len => readOnce len r1

/-- Reads a string: the length (signed 16-bit) first, then ONE `r.Read` into a buffer of that
length. -/
def ReadString (r : Stream) : Res (Name × Stream) :=
  match ReadShort r with
  | .error e => .error e
  | .ok (n, r1) =>
    match makeLen n with
    | .error e => .error e
    | .ok len => readOnce len r1

/-- The loop of `ReadIntArray`: `length` calls of `ReadInt`, appended in order. -/
def readInts : Nat → Stream → List Int → Res (List Int × Stream)
  | 0, r, acc => .ok (acc, r)
  | n + 1, r, acc =>
    match ReadInt r with
    | .error e => .error e
    | .ok (v, r1) => readInts n r1 (acc ++ [v])

/-- Reads an array of 32-bit ints: the length (signed 32-bit) first; `make([]int32, 0, length)`
panics on a negative length. -/
def ReadIntArray (r : Stream) : Res (List Int × Stream) :=
  match ReadInt r with
  | .error e => .error e
  | .ok (n, r1) =>
    match makeLen n with
    | .error e => .error e
    | .ok len => readInts len r1 []

/-! ## The target: Go types and values seen through `reflect` -/

/-- A struct field: its Go name, the value of its `nbt` struct tag (empty when absent) and
its content. -/
structure FieldOf (α : Type) where
  name : Name
  nbt : Name
  val : α
  deriving Repr

/-- The Go types of the targets considered: the predeclared types the readers produce, some
others a field can have (`bool`, `int8`, `int`), slices, and struct types (named, or anonymous
when the name is empty). All struct fields are exported, hence settable. -/
inductive GoType where
  | bool
  | int8
  | uint8
  | int16
  | int32
  | int64
  | int
  | float32
  | float64
  | string
  | slice (elem : GoType)
  | struct (name : Name) (fields : List (FieldOf GoType))
  deriving Repr

/-- A Go value of one of these types. Floats are kept as bit patterns; a slice carries its
element type. -/
inductive Val where
  | bool (b : Bool)
  | int8 (v : Int)
  | uint8 (v : Byte)
  | int16 (v : Int)
  | int32 (v : Int)
  | int64 (v : Int)
  | int (v : Int)
  | float32 (bits : Nat)
  | float64 (bits : Nat)
  | string (s : Name)
  | slice (elem : GoType) (items : List Val)
  | struct (name : Name) (fields : List (FieldOf Val))
  deriving Repr

mutual
/-- The dynamic type of a value (`Value.Type()`). -/
def Val.type : Val → GoType
  | .bool _ => .bool
  | .int8 _ => .int8
  | .uint8 _ => .uint8
  | .int16 _ => .int16
  | .int32 _ => .int32
  | .int64 _ => .int64
  | .int _ => .int
  | .float32 _ => .float32
  | .float64 _ => .float64
  | .string _ => .string
  | .slice e _ => .slice e
  | .struct n fs => .struct n (Val.fieldTypes fs)
/-- The field declarations of a struct value. -/
def Val.fieldTypes : List (FieldOf Val) → List (FieldOf GoType)
  | [] => []
  | f :: rest => ⟨f.name, f.nbt, Val.type f.val⟩ :: Val.fieldTypes rest
end

mutual
/-- The zero value of a type (`reflect.Indirect(reflect.New(t))`). -/
def zero : GoType → Val
  | .bool => .bool false
  | .int8 => .int8 0
  | .uint8 => .uint8 0
  | .int16 => .int16 0
  | .int32 => .int32 0
  | .int64 => .int64 0
  | .int => .int 0
  | .float32 => .float32 0
  | .float64 => .float64 0
  | .string => .string []
  | .slice e => .slice e []
  | .struct n fs => .struct n (zeroFields fs)
/-- The zero values of the fields of a struct type. -/
def zeroFields : List (FieldOf GoType) → List (FieldOf Val)
  | [] => []
  | f :: rest => ⟨f.name, f.nbt, zero f.val⟩ :: zeroFields rest
end

mutual
/-- Type identity. -/
def GoType.same : GoType → GoType → Bool
  | .bool, .bool => true
  | .int8, .int8 => true
  | .uint8, .uint8 => true
  | .int16, .int16 => true
  | .int32, .int32 => true
  | .int64, .int64 => true
  | .int, .int => true
  | .float32, .float32 => true
  | .float64, .float64 => true
  | .string, .string => true
  | .slice a, .slice b => GoType.same a b
  | .struct n fs, .struct m gs => decide (n = m) && GoType.sameFields fs gs
  | _, _ => false
/-- Identity of two field lists: same names, same tags, identical types, in the same order. -/
def GoType.sameFields : List (FieldOf GoType) → List (FieldOf GoType) → Bool
  | [], [] => true
  | f :: fs, g :: gs =>
    decide (f.name = g.name) && decide (f.nbt = g.nbt) && GoType.same f.val g.val
      && GoType.sameFields fs gs
  | _, _ => false
end

/-- The method `t.AssignableTo(u)` on the types above, none of which is an interface or a
defined non-struct type: a value of type `t` is assignable to `u` exactly when the two types
are identical. -/
def GoType.AssignableTo (t u : GoType) : Bool :=
  GoType.same t u

/-- The method `t.Elem()`: the element type of a slice type; a panic for the other kinds. -/
def GoType.Elem : GoType → Res GoType
  | .slice e => .ok e
  | _ => .error .panic

/-- The function `reflect.Append(s, x)`: a panic unless `s` is a slice. -/
def Append : Val → Val → Res Val
  | .slice e items, x => .ok (.slice e (items ++ [x]))
  | _, _ => .error .panic

/-! ## Binding names to fields -/

/-- A string all of whose bytes are ASCII (below `utf8.RuneSelf`, 128). -/
def isAscii (s : Name) : Bool :=
  s.all fun b => b.val < 128

/-- The result of `strings.ToLower` on a string of ASCII bytes: the letters `A` to `Z` are
replaced by `a` to `z`, every other byte is kept. -/
def asciiLower (s : Name) : Name :=
  s.map fun b => if 65 ≤ b.val ∧ b.val ≤ 90 then b + 32 else b

/-- The function `strings.ToLower`. A string of ASCII bytes is lower-cased byte by byte. Any
other string goes through `strings.Map(unicode.ToLower, s)`, which works on the UTF-8 decoding
of `s`, maps each code point with the Unicode case tables and writes U+FFFD for each invalid
byte: `ulower` is that function, it is only called on strings with a byte from 128 up. -/
def toLower (ulower : Name → Name) (s : Name) : Name :=
  if isAscii s then asciiLower s else ulower s

/-- A location reachable from a value in one step: the value itself, or its `i`-th field. -/
inductive Sel where
  | self
  | field (i : Nat)
  deriving Repr, DecidableEq

/-- The entries `StructFields` adds for the fields, in field order, numbering from `i`. -/
def fieldEntries (ulower : Name → Name) : Nat → List (FieldOf Val) → List (Name × Sel)
  | _, [] => []
  | i, f :: rest =>
    (toLower ulower (if f.nbt = [] then f.name else f.nbt), Sel.field i)
      :: fieldEntries ulower (i + 1) rest

/-- Using reflection create a map of the names of fields (or the nbt tag if present) to the
fields of a struct; the type's own name is entered first. The map is kept as the list of its
insertions, in order; for anything that is not a struct the result is the nil map. -/
def StructFields (ulower : Name → Name) : Option Val → List (Name × Sel)
  | some (.struct n fs) => (toLower ulower n, Sel.self) :: fieldEntries ulower 0 fs
  | _ => []

/-- Indexing a map given by its insertions: a later insertion with the same key replaces an
earlier one; a missing key (and any key of the nil map) gives nothing. -/
def mapGet : List (Name × Sel) → Name → Option Sel
  | [], _ => none
  | (k, s) :: rest, key =>
    match mapGet rest key with
    | some s2 => some s2
    | none => if k = key then some s else none

/-- The content of field `i`. -/
def fieldAt : List (FieldOf Val) → Nat → Option Val
  | [], _ => none
  | f :: _, 0 => some f.val
  | _ :: rest, i + 1 => fieldAt rest i

/-- Field `i` replaced by `v`. -/
def fieldPut : List (FieldOf Val) → Nat → Val → List (FieldOf Val)
  | [], _, _ => []
  | f :: rest, 0, v => ⟨f.name, f.nbt, v⟩ :: rest
  | f :: rest, i + 1, v => f :: fieldPut rest i v

/-- The value at a location. -/
def Val.at : Val → Sel → Option Val
  | d, .self => some d
  | .struct _ fs, .field i => fieldAt fs i
  | _, .field _ => none

/-- The value with the content of a location replaced (`Value.Set` through the location). -/
def Val.put : Val → Sel → Val → Val
  | _, .self, v => v
  | .struct n fs, .field i, v => .struct n (fieldPut fs i v)
  | d, .field _, _ => d

/-- The variable `field` of `readTag`, as a location inside `data`: the map entry of the
lower-cased name when `data` is valid, replaced by `data` itself when the name is empty. -/
def fieldOf (ulower : Name → Name) (data : Option Val) (name : Name) : Option Sel :=
  let field :=
    if data.isSome then mapGet (StructFields ulower data) (toLower ulower name) else none
  if name = [] then data.map (fun _ => Sel.self) else field

/-- The `reflect.Value` found at a location of `data` (invalid when there is no location). -/
def valueAt (data : Option Val) (sel : Option Sel) : Option Val :=
  match data, sel with
  | some d, some s => d.at s
  | _, _ => none

/-- Writing through a location of `data`; no location, or nothing to write, leaves `data`. -/
def setAt (data : Option Val) (sel : Option Sel) (v : Option Val) : Option Val :=
  match data, sel, v with
  | some d, some s, some x => some (d.put s x)
  | _, _, _ => data

/-- The store at the end of `readTag` for a decoded scalar `temp`: when `field` is valid and
`field.Type().AssignableTo(v.Type())`, `field.Set(v)`; otherwise nothing. -/
def storeScalar (data : Option Val) (sel : Option Sel) (temp : Val) : Option Val :=
  match valueAt data sel with
  | some f => if f.type.AssignableTo temp.type then setAt data sel (some temp) else data
  | none => data

/-! ## The decoder -/

/-- What `readTag` returns (`name`, `newTagType`), with the stream and the target after the
call. -/
structure TagOut where
  r : Stream
  data : Option Val
  name : Name
  newTagType : TagType
  deriving Repr

/-- The loop of `ReadCompound`: call `readTag` with `TAG_UNKNOWN` until it returns `TAG_END`.
Every call that returns has consumed a byte, so `n` calls are enough for a stream shorter
than `n` bytes. -/
def compoundLoop (readTag : TagType → Stream → Option Val → Res TagOut) :
    Nat → Stream → Option Val → Res (Stream × Option Val)
  | 0, _, _ => .error .fuel
  | n + 1, r, data =>
    match readTag TAG_UNKNOWN r data with
    | .error e => .error e
    | .ok out =>
      if out.newTagType = TAG_END then .ok (out.r, out.data)
      else compoundLoop readTag n out.r out.data

/-- Reads a list of tags into the given data structure until a tag of TAG_END is
encountered. -/
def ReadCompound (readTag : TagType → Stream → Option Val → Res TagOut)
    (r : Stream) (data : Option Val) : Res (Stream × Option Val) :=
  compoundLoop readTag (r.length + 1) r data

/-- One iteration of the loop of `ReadList`. -/
def listStep (readTag : TagType → Stream → Option Val → Res TagOut) (listType : TagType)
    (r : Stream) (data : Option Val) : Res (Stream × Option Val) :=
  match data with
  | some d =>
    match d.type.Elem with
    | .error e => .error e
    | .ok t =>
      let temp := zero t
      match readTag listType r (some temp) with
      | .error e => .error e
      | .ok out =>
        match Append d (out.data.getD temp) with
        | .error e => .error e
        | .ok d2 => .ok (out.r, some d2)
  | none =>
    match readTag listType r none with
    | .error e => .error e
    | .ok out => .ok (out.r, none)

/-- The loop of `ReadList`: `n` iterations. -/
def listLoop (readTag : TagType → Stream → Option Val → Res TagOut) (listType : TagType) :
    Nat → Stream → Option Val → Res (Stream × Option Val)
  | 0, r, data => .ok (r, data)
  | n + 1, r, data =>
    match listStep readTag listType r data with
    | .error e => .error e
    | .ok (r1, data1) => listLoop readTag listType n r1 data1

/-- Reads a list of tags into a list; the elements have no names or types of their own, so
`readTag` is given the tag type. The loop `for i := int32(0); i < length; i++` runs
`length` times, and not at all when `length` is negative. -/
def ReadList (readTag : TagType → Stream → Option Val → Res TagOut)
    (r : Stream) (data : Option Val) : Res (Stream × Option Val) :=
  match ReadByte r with
  | .error e => .error e
  | .ok (listType, r1) =>
    match ReadInt r1 with
    | .error e => .error e
    | .ok (length, r2) => listLoop readTag listType.val length.toNat r2 data

/-- The header of a tag as `readTag` determines it: the End tag, or a type and a name. -/
inductive Header where
  | stop (r : Stream)
  | tag (name : Name) (newTagType : TagType) (r : Stream)

/-- The first statement of `readTag`: with `TAG_UNKNOWN` the type byte is read, and unless it
is `TAG_END` the name; with any other `tagType` nothing is read and the name is empty. -/
def readHeader (tagType : TagType) (r : Stream) : Res Header :=
  if tagType = TAG_UNKNOWN then
    match ReadByte r with
    | .error e => .error e
    | .ok (b, r1) =>
      if b.val = TAG_END then .ok (.stop r1)
      else
        match ReadString r1 with
        | .error e => .error e
        | .ok (name, r2) => .ok (.tag name b.val r2)
  else .ok (.tag [] tagType r)

/-- The body of `readTag` after the header: resolve `field`, dispatch on the tag type, store
the result. The calls `ReadCompound(r, field)` and `ReadList(r, field)` go through `rec`, the
decoder for the tags nested in this one. -/
def tagBody (ulower : Name → Name) (rec : TagType → Stream → Option Val → Res TagOut)
    (name : Name) (newTagType : TagType) (r1 : Stream) (data : Option Val) : Res TagOut :=
  let field := fieldOf ulower data name
  match newTagType with
  | 1 =>
    match ReadByte r1 with
    | .error e => .error e
    | .ok (v, r2) => .ok ⟨r2, storeScalar data field (.uint8 v), name, newTagType⟩
  | 2 =>
    match ReadShort r1 with
    | .error e => .error e
    | .ok (v, r2) => .ok ⟨r2, storeScalar data field (.int16 v), name, newTagType⟩
  | 3 =>
    match ReadInt r1 with
    | .error e => .error e
    | .ok (v, r2) => .ok ⟨r2, storeScalar data field (.int32 v), name, newTagType⟩
  | 4 =>
    match ReadLong r1 with
    | .error e => .error e
    | .ok (v, r2) => .ok ⟨r2, storeScalar data field (.int64 v), name, newTagType⟩
  | 5 =>
    match ReadFloat r1 with
    | .error e => .error e
    | .ok (v, r2) => .ok ⟨r2, storeScalar data field (.float32 v), name, newTagType⟩
  | 6 =>
    match ReadDouble r1 with
    | .error e => .error e
    | .ok (v, r2) => .ok ⟨r2, storeScalar data field (.float64 v), name, newTagType⟩
  | 7 =>
    match ReadByteArray r1 with
    | .error e => .error e
    | .ok (v, r2) =>
      .ok ⟨r2, storeScalar data field (.slice .uint8 (v.map Val.uint8)), name, newTagType⟩
  | 8 =>
    match ReadString r1 with
    | .error e => .error e
    | .ok (v, r2) => .ok ⟨r2, storeScalar data field (.string v), name, newTagType⟩
  | 11 =>
    match ReadIntArray r1 with
    | .error e => .error e
    | .ok (v, r2) =>
      .ok ⟨r2, storeScalar data field (.slice .int32 (v.map Val.int32)), name, newTagType⟩
  | 10 =>
    match ReadCompound rec r1 (valueAt data field) with
    | .error e => .error e
    | .ok (r2, v) => .ok ⟨r2, setAt data field v, name, newTagType⟩
  | 9 =>
    match ReadList rec r1 (valueAt data field) with
    | .error e => .error e
    | .ok (r2, list) => .ok ⟨r2, setAt data field list, name, newTagType⟩
  | _ => .ok ⟨r1, data, name, newTagType⟩

/-- The decoder of one tag: the header, then the body. The first argument bounds the nesting
of compounds and lists still allowed below this tag. -/
def readTag (ulower : Name → Name) : Nat → TagType → Stream → Option Val → Res TagOut
  | 0, _, _, _ => .error .fuel
  | fuel + 1, tagType, r, data =>
    match readHeader tagType r with
    | .error e => .error e
    | .ok (.stop r1) => .ok ⟨r1, data, [], TAG_END⟩
    | .ok (.tag name newTagType r1) =>
      tagBody ulower (readTag ulower fuel) name newTagType r1 data

/-- Reads NBT formatted data into the given target (`data` is what the pointer passed to
`Read` points to). The result is the rest of the stream and the target after the call. -/
def Read (ulower : Name → Name) (r : Stream) (data : Val) : Res (Stream × Val) :=
  match readTag ulower (r.length + 1) TAG_UNKNOWN r (some data) with
  | .error e => .error e
  | .ok out => .ok (out.r, out.data.getD data)

/-! ## The wire format

Input streams are described by the tag trees they encode. The layout is the one the decoder
reads: big-endian numbers, a 2-byte length before a string, a 4-byte length before an array,
a type byte and a 4-byte count before the elements of a list, an End byte after the children
of a compound. -/

/-- The `w` bytes of the big-endian representation of `n` (of `n` modulo `256 ^ w`). -/
def beBytes : Nat → Nat → List Byte
  | 0, _ => []
  | w + 1, n => Fin.ofNat (n / 256 ^ w) :: beBytes w n

/-- The payload of a tag. Numbers are given by their unsigned bit patterns. -/
inductive Payload where
  | byte (b : Byte)
  | short (bits : Nat)
  | int (bits : Nat)
  | long (bits : Nat)
  | float (bits : Nat)
  | double (bits : Nat)
  | byteArray (bs : List Byte)
  | string (s : Name)
  | list (elemType : Byte) (items : List Payload)
  | compound (children : List (Name × Payload))
  | intArray (xs : List Nat)
  deriving Repr

/-- The type byte of a payload. -/
def Payload.kind : Payload → Byte
  | .byte _ => 1
  | .short _ => 2
  | .int _ => 3
  | .long _ => 4
  | .float _ => 5
  | .double _ => 6
  | .byteArray _ => 7
  | .string _ => 8
  | .list _ _ => 9
  | .compound _ => 10
  | .intArray _ => 11

/-- The bytes of a string: 2-byte length, then the bytes. -/
def encodeString (s : Name) : List Byte :=
  beBytes 2 s.length ++ s

/-- The bytes of a sequence of 32-bit numbers. -/
def encodeInts : List Nat → List Byte
  | [] => []
  | x :: xs => beBytes 4 x ++ encodeInts xs

mutual
/-- The bytes of a payload. -/
def Payload.encode : Payload → List Byte
  | .byte b => [b]
  | .short n => beBytes 2 n
  | .int n => beBytes 4 n
  | .long n => beBytes 8 n
  | .float n => beBytes 4 n
  | .double n => beBytes 8 n
  | .byteArray bs => beBytes 4 bs.length ++ bs
  | .string s => encodeString s
  | .list t items => t :: (beBytes 4 items.length ++ Payload.encodeItems items)
  | .compound cs => Payload.encodeChildren cs
  | .intArray xs => beBytes 4 xs.length ++ encodeInts xs
/-- The elements of a list, one after the other, with no header. -/
def Payload.encodeItems : List Payload → List Byte
  | [] => []
  | p :: ps => Payload.encode p ++ Payload.encodeItems ps
/-- The children of a compound, each with its header, then the End byte. -/
def Payload.encodeChildren : List (Name × Payload) → List Byte
  | [] => [0]
  | (name, p) :: cs =>
    Payload.kind p :: (encodeString name ++ (Payload.encode p ++ Payload.encodeChildren cs))
end

/-- A named tag: type byte, name, payload. -/
def encodeTag (name : Name) (p : Payload) : List Byte :=
  p.kind :: (encodeString name ++ p.encode)

mutual
/-- Well-formed payloads: every number fits its width, every length fits its signed length
field, and the elements of a list are all of the list's element type. -/
def Payload.wf : Payload → Bool
  | .byte _ => true
  | .short n => decide (n < 2 ^ 16)
  | .int n => decide (n < 2 ^ 32)
  | .long n => decide (n < 2 ^ 64)
  | .float n => decide (n < 2 ^ 32)
  | .double n => decide (n < 2 ^ 64)
  | .byteArray bs => decide (bs.length < 2 ^ 31)
  | .string s => decide (s.length < 2 ^ 15)
  | .list t items => decide (items.length < 2 ^ 31) && Payload.wfItems t items
  | .compound cs => Payload.wfChildren cs
  | .intArray xs => decide (xs.length < 2 ^ 31) && xs.all (fun x => decide (x < 2 ^ 32))
/-- Well-formed elements of a list of element type `t`. -/
def Payload.wfItems (t : Byte) : List Payload → Bool
  | [] => true
  | p :: ps => decide (Payload.kind p = t) && Payload.wf p && Payload.wfItems t ps
/-- Well-formed children of a compound: well-formed payloads under names that fit the
signed 2-byte length. -/
def Payload.wfChildren : List (Name × Payload) → Bool
  | [] => true
  | (name, p) :: cs => decide (name.length < 2 ^ 15) && Payload.wf p && Payload.wfChildren cs
end

/-- The bytes of an ASCII text. -/
def ascii (s : String) : Name :=
  s.toList.map fun c => Fin.ofNat c.toNat

/-- The value `readTag` holds in `temp` after the switch, for a tag with this payload: the
result of the reader of its kind. Lists and compounds leave `temp` nil. -/
def Payload.temp : Payload → Option Val
  | .byte b => some (.uint8 b)
  | .short n => some (.int16 (toSigned 16 n))
  | .int n => some (.int32 (toSigned 32 n))
  | .long n => some (.int64 (toSigned 64 n))
  | .float n => some (.float32 n)
  | .double n => some (.float64 n)
  | .byteArray bs => some (.slice .uint8 (bs.map Val.uint8))
  | .string s => some (.string s)
  | .intArray xs => some (.slice .int32 ((xs.map (toSigned 32)).map Val.int32))
  | .list _ _ => none
  | .compound _ => none

/-- An outcome `a` obtained under a smaller budget than `b`: it ran out of budget, or it is
the outcome `b`. -/
def stable {α : Type} (a b : Res α) : Prop :=
  a = .error .fuel ∨ a = b

/-! ## Notions used to state how the decoder treats well-formed tags -/

/-- The outcome of `readTag` with the rest of the stream replaced by `rest`. -/
def withRest (rest : Stream) (a : Res TagOut) : Res TagOut :=
  match a with
  | .ok o => .ok ⟨rest, o.data, o.name, o.newTagType⟩
  | .error e => .error e

/-- The outcome of `ReadCompound` or `ReadList` with the rest of the stream replaced. -/
def withRest2 (rest : Stream) (a : Res (Stream × Option Val)) : Res (Stream × Option Val) :=
  match a with
  | .ok (_, d) => .ok (rest, d)
  | .error e => .error e

/-- A decoder of nested tags that handles a well-formed tag in the same way whatever follows
it in the stream, that leaves exactly what follows, and that reports `TAG_END` for the End byte
and only for it. -/
structure Respects (rt : TagType → Stream → Option Val → Res TagOut) : Prop where
  item : ∀ (p : Payload) (d : Option Val) (rest : Stream), p.wf = true →
    rt p.kind.val (p.encode ++ rest) d = withRest rest (rt p.kind.val p.encode d)
  named : ∀ (name : Name) (p : Payload) (d : Option Val) (rest : Stream), p.wf = true →
    name.length < 2 ^ 15 →
    rt TAG_UNKNOWN (encodeTag name p ++ rest) d = withRest rest (rt TAG_UNKNOWN (encodeTag name p) d)
  namedType : ∀ (name : Name) (p : Payload) (d : Option Val) (o : TagOut), p.wf = true →
    name.length < 2 ^ 15 →
    rt TAG_UNKNOWN (encodeTag name p) d = .ok o → o.newTagType ≠ TAG_END
  stop : ∀ (d : Option Val) (rest : Stream),
    rt TAG_UNKNOWN ((0 : Byte) :: rest) d = withRest rest (rt TAG_UNKNOWN [0] d)
  stopType : ∀ (d : Option Val) (o : TagOut),
    rt TAG_UNKNOWN [0] d = .ok o → o.newTagType = TAG_END

mutual
/-- The nesting of `readTag` calls needed to decode a payload: one for the tag itself, and for
a list or a compound those of what it holds (a compound always holds its End tag). -/
def Payload.depth : Payload → Nat
  | .list _ items => 1 + Payload.depthItems items
  | .compound cs => 1 + Payload.depthChildren cs
  | _ => 1
/-- The deepest element of a list. -/
def Payload.depthItems : List Payload → Nat
  | [] => 0
  | p :: ps => max (Payload.depth p) (Payload.depthItems ps)
/-- The deepest child of a compound, the End tag counted as a child. -/
def Payload.depthChildren : List (Name × Payload) → Nat
  | [] => 1
  | (_, p) :: cs => max (Payload.depth p) (Payload.depthChildren cs)
end

/-- A decoder of nested tags that, given no target, consumes exactly a well-formed tag of
depth at most `m` and reports its name and type. -/
structure Discards (rt : TagType → Stream → Option Val → Res TagOut) (m : Nat) : Prop where
  item : ∀ (p : Payload) (rest : Stream), p.wf = true → p.depth ≤ m →
    rt p.kind.val (p.encode ++ rest) none = .ok ⟨rest, none, [], p.kind.val⟩
  named : ∀ (name : Name) (p : Payload) (rest : Stream), p.wf = true → name.length < 2 ^ 15 →
    p.depth ≤ m →
    rt TAG_UNKNOWN (encodeTag name p ++ rest) none = .ok ⟨rest, none, name, p.kind.val⟩
  stop : ∀ (rest : Stream), 1 ≤ m →
    rt TAG_UNKNOWN ((0 : Byte) :: rest) none = .ok ⟨rest, none, [], TAG_END⟩

/-- Two targets that bind names in the same way: both valid or both invalid, with the same
map from names to fields. -/
def sameShape (ulower : Name → Name) (a b : Option Val) : Prop :=
  a.isSome = b.isSome ∧ StructFields ulower a = StructFields ulower b

/-- A decoder of nested tags that does not change how the target binds names. -/
def KeepsShape (ulower : Name → Name) (rt : TagType → Stream → Option Val → Res TagOut) :
    Prop :=
  ∀ (tt : TagType) (r : Stream) (d : Option Val) (o : TagOut),
    rt tt r d = .ok o → sameShape ulower d o.data

/-! ## Notions used to state that decoding ends -/

/-- An outcome of a reader called on `r` that either returns with at least `k` bytes of `r`
consumed and none added, or fails for a reason of the program (not for lack of budget). -/
def consumes {α : Type} (k : Nat) (r : Stream) (res : Res (α × Stream)) : Prop :=
  match res with
  | .ok (_, r2) => r2.length + k ≤ r.length
  | .error e => e ≠ Err.fuel

/-- A decoder of nested tags that never returns a longer stream than it was given, and a
shorter one when it had to read a header. -/
def Shrinks (rt : TagType → Stream → Option Val → Res TagOut) : Prop :=
  ∀ (tt : TagType) (r : Stream) (d : Option Val) (o : TagOut), rt tt r d = .ok o →
    o.r.length ≤ r.length ∧ (tt = TAG_UNKNOWN → o.r.length < r.length)

/-- The budget a call of `readTag` on `r` needs at most: one level per byte, and one more
when no header is read. -/
def need (tt : TagType) (r : Stream) : Nat :=
  if tt = TAG_UNKNOWN then r.length else r.length + 1

/-- A decoder of nested tags that does not run out of budget on any call that needs less
than `budget`. -/
def Suffices (rt : TagType → Stream → Option Val → Res TagOut) (budget : Nat) : Prop :=
  ∀ (tt : TagType) (r : Stream) (d : Option Val), need tt r < budget → rt tt r d ≠ .error .fuel

/-- The element a list element `p` of type `t` decodes to: what `readTag` leaves in a fresh
zero value of the slot's element type `e`. -/
def decodedItem (ulower : Name → Name) (fuel : Nat) (t : Byte) (e : GoType) (p : Payload) :
    Val :=
  match readTag ulower fuel t.val p.encode (some (zero e)) with
  | .ok o => o.data.getD (zero e)
  | .error _ => zero e

/-! ## Targets used in the examples -/

/-- A target `struct T { L []int32 }` with the given content of `L`. -/
def listTarget (items : List Val) : Val :=
  .struct (ascii "T") [⟨ascii "L", [], .slice .int32 items⟩]

/-- A target `struct T { X int32 }`. -/
def intTarget (x : Int) : Val :=
  .struct (ascii "T") [⟨ascii "X", [], .int32 x⟩]

/-- A target `struct T { X string }`. -/
def stringTarget (s : Name) : Val :=
  .struct (ascii "T") [⟨ascii "X", [], .string s⟩]

/-- A target `struct T { Names []string }`. -/
def namesTarget (items : List Val) : Val :=
  .struct (ascii "T") [⟨ascii "Names", [], .slice .string items⟩]

/-- The target of the end-to-end scenario:
`struct Level { ByteTest byte; Nested struct Nested { Name string; Value float32 } }`. -/
def level (b : Byte) (s : Name) (f : Nat) : Val :=
  .struct (ascii "Level")
    [⟨ascii "ByteTest", [], .uint8 b⟩,
     ⟨ascii "Nested", [], .struct (ascii "Nested")
        [⟨ascii "Name", [], .string s⟩, ⟨ascii "Value", [], .float32 f⟩]⟩]

/-- The tree of the end-to-end scenario. -/
def levelTree (b : Byte) (s : Name) (f : Nat) : Payload :=
  .compound
    [(ascii "ByteTest", .byte b),
     (ascii "Nested", .compound [(ascii "Name", .string s), (ascii "Value", .float f)])]

/-- A tag tree no field of `Level` is named after: a List of two Compounds, the first holding
an Int and a List of one String, the second empty. -/
def extraTree : Payload :=
  .list 10
    [.compound [(ascii "id", .int 5), (ascii "tags", .list 8 [.string (ascii "x")])],
     .compound []]

/-- A target `struct T { X byte }`. -/
def byteTarget (b : Byte) : Val :=
  .struct (ascii "T") [⟨ascii "X", [], .uint8 b⟩]

/-- A target `struct T { X int8 }`. -/
def int8Target (x : Int) : Val :=
  .struct (ascii "T") [⟨ascii "X", [], .int8 x⟩]

/-- The key `StructFields` enters a field under: the `nbt` tag when there is one, otherwise
the field's name, in lower case. -/
def fieldKey (ulower : Name → Name) (f : FieldOf Val) : Name :=
  toLower ulower (if f.nbt = [] then f.name else f.nbt)

/-- The examples below decode streams into targets all of whose names are ASCII: there
`strings.ToLower` is `asciiLower` and its Unicode part is not called. This function stands for
that part in the examples. -/
def noUnicode (s : Name) : Name :=
  s

theorem readFull_append (bs rest : List Byte) :
    readFull bs.length (bs ++ rest) = .ok (bs, rest) := by
  induction bs with
  | nil => rfl
  | cons b bs ih => simp [readFull, ih]

theorem readFull_short (n : Nat) (r : Stream) (h : r.length < n) :
    readFull n r = .error .io := by
  induction n generalizing r with
  | zero => omega
  | succ n ih =>
    cases r with
    | nil => rfl
    | cons b r =>
      have h2 : r.length < n := by simpa using h
      simp [readFull, ih r h2]

theorem beBytes_length (w n : Nat) : (beBytes w n).length = w := by
  induction w with
  | zero => rfl
  | succ w ih => simp [beBytes, ih]

theorem foldl_be (bs : List Byte) (acc : Nat) :
    bs.foldl (fun a b => a * 256 + b.val) acc = acc * 256 ^ bs.length + beNat bs := by
  induction bs generalizing acc with
  | nil => simp [beNat]
  | cons b bs ih =>
    simp only [List.foldl_cons, List.length_cons, beNat]
    rw [ih (acc * 256 + b.val), ih (0 * 256 + b.val)]
    ring

theorem beNat_cons (b : Byte) (bs : List Byte) :
    beNat (b :: bs) = b.val * 256 ^ bs.length + beNat bs := by
  unfold beNat
  rw [List.foldl_cons, foldl_be]
  simp [beNat]

theorem beNat_beBytes (w n : Nat) : beNat (beBytes w n) = n % 256 ^ w := by
  induction w with
  | zero => simp [beBytes, beNat, Nat.mod_one]
  | succ w ih =>
    rw [beBytes, beNat_cons, ih, beBytes_length]
    have hv : (Fin.ofNat (n / 256 ^ w) : Fin 256).val = (n / 256 ^ w) % 256 := rfl
    rw [hv, pow_succ, Nat.mod_mul, Nat.add_comm, Nat.mul_comm]

theorem beNat_beBytes_of_lt (w n : Nat) (h : n < 256 ^ w) : beNat (beBytes w n) = n := by
  rw [beNat_beBytes, Nat.mod_eq_of_lt h]

theorem binaryRead_append (bs rest : List Byte) :
    binaryRead bs.length (bs ++ rest) = .ok (beNat bs, rest) := by
  simp [binaryRead, readFull_append]

theorem binaryRead_beBytes (w n : Nat) (rest : List Byte) :
    binaryRead w (beBytes w n ++ rest) = .ok (n % 256 ^ w, rest) := by
  have h := binaryRead_append (beBytes w n) rest
  rw [beBytes_length, beNat_beBytes] at h
  exact h

theorem binaryRead_short (w : Nat) (r : Stream) (h : r.length < w) :
    binaryRead w r = .error .io := by
  simp [binaryRead, readFull_short w r h]

theorem readOnce_append (bs rest : List Byte) :
    readOnce bs.length (bs ++ rest) = .ok (bs, rest) := by
  cases bs with
  | nil => simp [readOnce]
  | cons b bs => simp [readOnce]

theorem toSigned_of_lt (bits n : Nat) (h : n < 2 ^ (bits - 1)) : toSigned bits n = (n : Int) := by
  simp [toSigned, h]

theorem ReadShort_beBytes (n : Nat) (rest : List Byte) (h : n < 2 ^ 15) :
    ReadShort (beBytes 2 n ++ rest) = .ok ((n : Int), rest) := by
  have h1 : n % 256 ^ 2 = n := Nat.mod_eq_of_lt (by omega)
  have h2 : toSigned 16 n = (n : Int) := toSigned_of_lt 16 n (by simpa using h)
  rw [ReadShort, binaryRead_beBytes, h1]
  simp only [h2]

theorem ReadInt_beBytes (n : Nat) (rest : List Byte) (h : n < 2 ^ 31) :
    ReadInt (beBytes 4 n ++ rest) = .ok ((n : Int), rest) := by
  have h1 : n % 256 ^ 4 = n := Nat.mod_eq_of_lt (by omega)
  have h2 : toSigned 32 n = (n : Int) := toSigned_of_lt 32 n (by simpa using h)
  rw [ReadInt, binaryRead_beBytes, h1]
  simp only [h2]

theorem makeLen_nat (n : Nat) : makeLen (n : Int) = .ok n := by
  simp [makeLen]

theorem ReadString_encode (s : Name) (rest : List Byte) (h : s.length < 2 ^ 15) :
    ReadString (encodeString s ++ rest) = .ok (s, rest) := by
  unfold ReadString encodeString
  rw [List.append_assoc, ReadShort_beBytes _ _ h]
  simp only [makeLen_nat]
  exact readOnce_append s rest

theorem ReadByteArray_encode (bs rest : List Byte) (h : bs.length < 2 ^ 31) :
    ReadByteArray (beBytes 4 bs.length ++ bs ++ rest) = .ok (bs, rest) := by
  unfold ReadByteArray
  rw [List.append_assoc, ReadInt_beBytes _ _ h]
  simp only [makeLen_nat]
  exact readOnce_append bs rest

@[simp] theorem kind_byte (b : Byte) : (Payload.byte b).kind.val = 1 := rfl
@[simp] theorem kind_short (n : Nat) : (Payload.short n).kind.val = 2 := rfl
@[simp] theorem kind_int (n : Nat) : (Payload.int n).kind.val = 3 := rfl
@[simp] theorem kind_long (n : Nat) : (Payload.long n).kind.val = 4 := rfl
@[simp] theorem kind_float (n : Nat) : (Payload.float n).kind.val = 5 := rfl
@[simp] theorem kind_double (n : Nat) : (Payload.double n).kind.val = 6 := rfl
@[simp] theorem kind_byteArray (bs : List Byte) : (Payload.byteArray bs).kind.val = 7 := rfl
@[simp] theorem kind_string (s : Name) : (Payload.string s).kind.val = 8 := rfl
@[simp] theorem kind_list (t : Byte) (ps : List Payload) : (Payload.list t ps).kind.val = 9 := rfl
@[simp] theorem kind_compound (cs : List (Name × Payload)) :
    (Payload.compound cs).kind.val = 10 := rfl
@[simp] theorem kind_intArray (xs : List Nat) : (Payload.intArray xs).kind.val = 11 := rfl

theorem kind_ne_zero (p : Payload) : p.kind.val ≠ TAG_END := by
  cases p <;> simp [TAG_END]

theorem kind_ne_unknown (p : Payload) : p.kind.val ≠ TAG_UNKNOWN := by
  cases p <;> simp [TAG_UNKNOWN]

theorem readHeader_named (k : Byte) (name : Name) (r : Stream) (hk : k.val ≠ TAG_END)
    (hn : name.length < 2 ^ 15) :
    readHeader TAG_UNKNOWN (k :: (encodeString name ++ r)) = .ok (.tag name k.val r) := by
  simp [readHeader, ReadByte, hk, ReadString_encode name r hn]

theorem readHeader_known (tt : TagType) (r : Stream) (h : tt ≠ TAG_UNKNOWN) :
    readHeader tt r = .ok (.tag [] tt r) := by
  simp [readHeader, h]

theorem readTag_named {ulower : Name → Name}
    (f : Nat) (name : Name) (p : Payload) (rest : Stream) (data : Option Val)
    (hn : name.length < 2 ^ 15) :
    readTag ulower (f + 1) TAG_UNKNOWN (encodeTag name p ++ rest) data
      = tagBody ulower (readTag ulower f) name p.kind.val (p.encode ++ rest) data := by
  have h := readHeader_named p.kind name (p.encode ++ rest) (kind_ne_zero p) hn
  simp only [encodeTag, List.cons_append, List.append_assoc]
  rw [readTag, h]

theorem readTag_item {ulower : Name → Name}
    (f : Nat) (p : Payload) (rest : Stream) (data : Option Val) :
    readTag ulower (f + 1) p.kind.val (p.encode ++ rest) data
      = tagBody ulower (readTag ulower f) [] p.kind.val (p.encode ++ rest) data := by
  rw [readTag, readHeader_known _ _ (kind_ne_unknown p)]

theorem ReadInt_bits (n : Nat) (rest : List Byte) (h : n < 2 ^ 32) :
    ReadInt (beBytes 4 n ++ rest) = .ok (toSigned 32 n, rest) := by
  have h1 : n % 256 ^ 4 = n := Nat.mod_eq_of_lt (by omega)
  rw [ReadInt, binaryRead_beBytes, h1]

theorem ReadShort_bits (n : Nat) (rest : List Byte) (h : n < 2 ^ 16) :
    ReadShort (beBytes 2 n ++ rest) = .ok (toSigned 16 n, rest) := by
  have h1 : n % 256 ^ 2 = n := Nat.mod_eq_of_lt (by omega)
  rw [ReadShort, binaryRead_beBytes, h1]

theorem ReadLong_bits (n : Nat) (rest : List Byte) (h : n < 2 ^ 64) :
    ReadLong (beBytes 8 n ++ rest) = .ok (toSigned 64 n, rest) := by
  have h1 : n % 256 ^ 8 = n := Nat.mod_eq_of_lt (by omega)
  rw [ReadLong, binaryRead_beBytes, h1]

theorem ReadFloat_bits (n : Nat) (rest : List Byte) (h : n < 2 ^ 32) :
    ReadFloat (beBytes 4 n ++ rest) = .ok (n, rest) := by
  have h1 : n % 256 ^ 4 = n := Nat.mod_eq_of_lt (by omega)
  rw [ReadFloat, binaryRead_beBytes, h1]

theorem ReadDouble_bits (n : Nat) (rest : List Byte) (h : n < 2 ^ 64) :
    ReadDouble (beBytes 8 n ++ rest) = .ok (n, rest) := by
  have h1 : n % 256 ^ 8 = n := Nat.mod_eq_of_lt (by omega)
  rw [ReadDouble, binaryRead_beBytes, h1]

theorem readInts_encode (xs : List Nat) (rest : List Byte) (acc : List Int)
    (h : ∀ x ∈ xs, x < 2 ^ 32) :
    readInts xs.length (encodeInts xs ++ rest) acc = .ok (acc ++ xs.map (toSigned 32), rest) := by
  induction xs generalizing acc with
  | nil => simp [readInts, encodeInts]
  | cons x xs ih =>
    have hx : x < 2 ^ 32 := h x (List.mem_cons_self _ _)
    have hxs : ∀ y ∈ xs, y < 2 ^ 32 := fun y hy => h y (List.mem_cons_of_mem _ hy)
    simp only [List.length_cons, readInts, encodeInts, List.append_assoc]
    rw [ReadInt_bits x _ hx]
    simp only
    rw [ih _ hxs]
    simp

theorem ReadIntArray_encode (xs : List Nat) (rest : List Byte) (hl : xs.length < 2 ^ 31)
    (h : ∀ x ∈ xs, x < 2 ^ 32) :
    ReadIntArray (beBytes 4 xs.length ++ encodeInts xs ++ rest)
      = .ok (xs.map (toSigned 32), rest) := by
  unfold ReadIntArray
  rw [List.append_assoc, ReadInt_beBytes _ _ hl]
  simp only [makeLen_nat]
  rw [readInts_encode xs rest [] h]
  simp

theorem tagBody_scalar {ulower : Name → Name}
    (rt : TagType → Stream → Option Val → Res TagOut) (name : Name)
    (p : Payload) (v : Val) (rest : Stream) (data : Option Val)
    (hwf : p.wf = true) (hv : p.temp = some v) :
    tagBody ulower rt name p.kind.val (p.encode ++ rest) data
      = .ok ⟨rest, storeScalar data (fieldOf ulower data name) v, name, p.kind.val⟩ := by
  cases p with
  | byte b =>
    simp only [Payload.temp, Option.some.injEq] at hv
    subst hv
    simp [tagBody, Payload.encode, ReadByte]
  | short n =>
    simp only [Payload.temp, Option.some.injEq] at hv
    simp only [Payload.wf, decide_eq_true_eq] at hwf
    subst hv
    simp [tagBody, Payload.encode, ReadShort_bits n rest hwf]
  | int n =>
    simp only [Payload.temp, Option.some.injEq] at hv
    simp only [Payload.wf, decide_eq_true_eq] at hwf
    subst hv
    simp [tagBody, Payload.encode, ReadInt_bits n rest hwf]
  | long n =>
    simp only [Payload.temp, Option.some.injEq] at hv
    simp only [Payload.wf, decide_eq_true_eq] at hwf
    subst hv
    simp [tagBody, Payload.encode, ReadLong_bits n rest hwf]
  | float n =>
    simp only [Payload.temp, Option.some.injEq] at hv
    simp only [Payload.wf, decide_eq_true_eq] at hwf
    subst hv
    simp [tagBody, Payload.encode, ReadFloat_bits n rest hwf]
  | double n =>
    simp only [Payload.temp, Option.some.injEq] at hv
    simp only [Payload.wf, decide_eq_true_eq] at hwf
    subst hv
    simp [tagBody, Payload.encode, ReadDouble_bits n rest hwf]
  | byteArray bs =>
    simp only [Payload.temp, Option.some.injEq] at hv
    simp only [Payload.wf, decide_eq_true_eq] at hwf
    subst hv
    have h := ReadByteArray_encode bs rest hwf
    rw [List.append_assoc] at h
    simp [tagBody, Payload.encode, h]
  | string s =>
    simp only [Payload.temp, Option.some.injEq] at hv
    simp only [Payload.wf, decide_eq_true_eq] at hwf
    subst hv
    simp [tagBody, Payload.encode, ReadString_encode s rest hwf]
  | intArray xs =>
    simp only [Payload.temp, Option.some.injEq] at hv
    simp only [Payload.wf, Bool.and_eq_true, decide_eq_true_eq, List.all_eq_true] at hwf
    subst hv
    have h := ReadIntArray_encode xs rest hwf.1 hwf.2
    rw [List.append_assoc] at h
    simp [tagBody, Payload.encode, h]
  | list t items => simp [Payload.temp] at hv
  | compound cs => simp [Payload.temp] at hv

theorem same_temp_type (p : Payload) (v : Val) (t : GoType) (hv : p.temp = some v)
    (h : GoType.same t v.type = true) : t = v.type := by
  cases p <;> simp only [Payload.temp, Option.some.injEq, reduceCtorEq] at hv
  all_goals subst hv
  all_goals cases t <;> simp_all [GoType.same, Val.type]
  all_goals rename_i e
  all_goals cases e <;> simp_all [GoType.same]

theorem ReadInt_cons4 (b0 b1 b2 b3 : Byte) (rest : Stream) :
    ReadInt (b0 :: b1 :: b2 :: b3 :: rest)
      = .ok (toSigned 32 (beNat [b0, b1, b2, b3]), rest) := by
  simp [ReadInt, binaryRead, readFull]

/-! ## A larger budget does not change an outcome -/

theorem stable_refl {α : Type} (a : Res α) : stable a a := Or.inr rfl

theorem stable_ok {α : Type} {a b : Res α} {x : α} (h : stable a b) (ha : a = .ok x) :
    b = .ok x := by
  rcases h with h | h
  · rw [h] at ha; cases ha
  · rw [← h]; exact ha

theorem compoundLoop_stable {rt rt2 : TagType → Stream → Option Val → Res TagOut}
    (h : ∀ tt r d, stable (rt tt r d) (rt2 tt r d)) :
    ∀ (n m : Nat) (r : Stream) (d : Option Val), n ≤ m →
      stable (compoundLoop rt n r d) (compoundLoop rt2 m r d)
  | 0, _, _, _, _ => Or.inl rfl
  | n + 1, 0, _, _, hle => absurd hle (by omega)
  | n + 1, m + 1, r, d, hle => by
    simp only [compoundLoop]
    rcases h TAG_UNKNOWN r d with h1 | h1
    · rw [h1]; exact Or.inl rfl
    · rw [h1]
      cases rt2 TAG_UNKNOWN r d with
      | error e => exact Or.inr rfl
      | ok out =>
        simp only
        split
        · exact Or.inr rfl
        · exact compoundLoop_stable h n m out.r out.data (by omega)

theorem listStep_stable {rt rt2 : TagType → Stream → Option Val → Res TagOut}
    (h : ∀ tt r d, stable (rt tt r d) (rt2 tt r d)) (lt : TagType) (r : Stream)
    (d : Option Val) : stable (listStep rt lt r d) (listStep rt2 lt r d) := by
  cases d with
  | none =>
    simp only [listStep]
    rcases h lt r none with h1 | h1
    · rw [h1]; exact Or.inl rfl
    · rw [h1]; exact Or.inr rfl
  | some v =>
    simp only [listStep]
    cases v.type.Elem with
    | error e => exact Or.inr rfl
    | ok t =>
      simp only
      rcases h lt r (some (zero t)) with h1 | h1
      · rw [h1]; exact Or.inl rfl
      · rw [h1]; exact Or.inr rfl

theorem listLoop_stable {rt rt2 : TagType → Stream → Option Val → Res TagOut}
    (h : ∀ tt r d, stable (rt tt r d) (rt2 tt r d)) (lt : TagType) :
    ∀ (n : Nat) (r : Stream) (d : Option Val),
      stable (listLoop rt lt n r d) (listLoop rt2 lt n r d)
  | 0, _, _ => Or.inr rfl
  | n + 1, r, d => by
    simp only [listLoop]
    rcases listStep_stable h lt r d with h1 | h1
    · rw [h1]; exact Or.inl rfl
    · rw [h1]
      cases listStep rt2 lt r d with
      | error e => exact Or.inr rfl
      | ok x => exact listLoop_stable h lt n x.1 x.2

theorem ReadCompound_stable {rt rt2 : TagType → Stream → Option Val → Res TagOut}
    (h : ∀ tt r d, stable (rt tt r d) (rt2 tt r d)) (r : Stream) (d : Option Val) :
    stable (ReadCompound rt r d) (ReadCompound rt2 r d) :=
  compoundLoop_stable h _ _ r d (Nat.le_refl _)

theorem ReadList_stable {rt rt2 : TagType → Stream → Option Val → Res TagOut}
    (h : ∀ tt r d, stable (rt tt r d) (rt2 tt r d)) (r : Stream) (d : Option Val) :
    stable (ReadList rt r d) (ReadList rt2 r d) := by
  simp only [ReadList]
  cases ReadByte r with
  | error e => exact Or.inr rfl
  | ok x =>
    simp only
    cases ReadInt x.2 with
    | error e => exact Or.inr rfl
    | ok y => exact listLoop_stable h _ _ _ _

theorem tagBody_stable {ulower : Name → Name} {rt rt2 : TagType → Stream → Option Val → Res TagOut}
    (h : ∀ tt r d, stable (rt tt r d) (rt2 tt r d)) (name : Name) (k : TagType) (r : Stream)
    (d : Option Val) : stable (tagBody ulower rt name k r d) (tagBody ulower rt2 name k r d) := by
  unfold tagBody
  split
  all_goals try (exact stable_refl _)
  all_goals dsimp only
  · rcases ReadCompound_stable h r (valueAt d (fieldOf ulower d name)) with h1 | h1
    · rw [h1]; exact Or.inl rfl
    · rw [h1]; exact Or.inr rfl
  · rcases ReadList_stable h r (valueAt d (fieldOf ulower d name)) with h1 | h1
    · rw [h1]; exact Or.inl rfl
    · rw [h1]; exact Or.inr rfl

theorem readTag_succ_stable {ulower : Name → Name}
    : ∀ (f : Nat) (tt : TagType) (r : Stream) (d : Option Val),
    stable (readTag ulower f tt r d) (readTag ulower (f + 1) tt r d)
  | 0, _, _, _ => Or.inl rfl
  | f + 1, tt, r, d => by
    rw [readTag, readTag]
    cases readHeader tt r with
    | error e => exact Or.inr rfl
    | ok hd =>
      cases hd with
      | stop r1 => exact Or.inr rfl
      | tag name k r1 => exact tagBody_stable (readTag_succ_stable f) name k r1 d

theorem readTag_stable {ulower : Name → Name}
    (f g : Nat) (hfg : f ≤ g) (tt : TagType) (r : Stream) (d : Option Val) :
    stable (readTag ulower f tt r d) (readTag ulower g tt r d) := by
  induction g with
  | zero =>
    have : f = 0 := by omega
    subst this
    exact stable_refl _
  | succ g ih =>
    by_cases hf : f = g + 1
    · subst hf; exact stable_refl _
    · rcases ih (by omega) with h1 | h1
      · exact Or.inl h1
      · rw [h1]; exact readTag_succ_stable g tt r d


/-! ## Stepping through compounds and lists -/

theorem tagBody_compound {ulower : Name → Name}
    (rt : TagType → Stream → Option Val → Res TagOut) (name : Name)
    (r : Stream) (d : Option Val) :
    tagBody ulower rt name 10 r d
      = match ReadCompound rt r (valueAt d (fieldOf ulower d name)) with
        | .error e => .error e
        | .ok (r2, v) => .ok ⟨r2, setAt d (fieldOf ulower d name) v, name, 10⟩ := rfl

theorem tagBody_list {ulower : Name → Name}
    (rt : TagType → Stream → Option Val → Res TagOut) (name : Name)
    (r : Stream) (d : Option Val) :
    tagBody ulower rt name 9 r d
      = match ReadList rt r (valueAt d (fieldOf ulower d name)) with
        | .error e => .error e
        | .ok (r2, v) => .ok ⟨r2, setAt d (fieldOf ulower d name) v, name, 9⟩ := rfl

theorem compoundLoop_cons (rt : TagType → Stream → Option Val → Res TagOut) (n : Nat)
    (r : Stream) (d : Option Val) (out : TagOut) (h : rt TAG_UNKNOWN r d = .ok out)
    (hne : out.newTagType ≠ TAG_END) :
    compoundLoop rt (n + 1) r d = compoundLoop rt n out.r out.data := by
  simp [compoundLoop, h, hne]

theorem compoundLoop_end {ulower : Name → Name} (f n : Nat) (rest : Stream) (d : Option Val) :
    compoundLoop (readTag ulower (f + 1)) (n + 1) ((0 : Byte) :: rest) d = .ok (rest, d) := by
  simp [compoundLoop, readTag, readHeader, ReadByte, TAG_UNKNOWN, TAG_END]

theorem ReadCompound_of_loop (rt : TagType → Stream → Option Val → Res TagOut) (n : Nat)
    (r : Stream) (d : Option Val) (x : Stream × Option Val)
    (h : compoundLoop rt n r d = .ok x) (hn : n ≤ r.length + 1) :
    ReadCompound rt r d = .ok x :=
  stable_ok (compoundLoop_stable (fun _ _ _ => stable_refl _) n _ r d hn) h

theorem encodeChildren_cons_append (name : Name) (p : Payload) (cs : List (Name × Payload))
    (rest : List Byte) :
    Payload.encodeChildren ((name, p) :: cs) ++ rest
      = encodeTag name p ++ (Payload.encodeChildren cs ++ rest) := by
  simp [Payload.encodeChildren, encodeTag]

theorem encodeChildren_nil_append (rest : List Byte) :
    Payload.encodeChildren [] ++ rest = (0 : Byte) :: rest := by
  simp [Payload.encodeChildren]

theorem encodeItems_cons_append (p : Payload) (ps : List Payload) (rest : List Byte) :
    Payload.encodeItems (p :: ps) ++ rest = p.encode ++ (Payload.encodeItems ps ++ rest) := by
  simp [Payload.encodeItems]

theorem fieldAt_fieldPut (fs : List (FieldOf Val)) (i : Nat) (v w : Val)
    (h : fieldAt fs i = some w) : fieldAt (fieldPut fs i v) i = some v := by
  induction fs generalizing i with
  | nil => simp [fieldAt] at h
  | cons f fs ih =>
    cases i with
    | zero => simp [fieldPut, fieldAt]
    | succ i => simpa [fieldPut, fieldAt] using ih i (by simpa [fieldAt] using h)

theorem at_put (d : Val) (sel : Sel) (v w : Val) (h : d.at sel = some w) :
    (d.put sel v).at sel = some v := by
  cases sel with
  | self => simp [Val.put, Val.at]
  | field i =>
    cases d <;> simp [Val.at] at h
    simpa [Val.put, Val.at] using fieldAt_fieldPut _ i v w h

/-- The step of the list loop on a string element. -/
theorem listStep_string {ulower : Name → Name} (f : Nat) (x : Name) (acc : List Val) (rest : Stream)
    (hx : x.length < 2 ^ 15) :
    listStep (readTag ulower (f + 1)) 8 (encodeString x ++ rest) (some (.slice .string acc))
      = .ok (rest, some (.slice .string (acc ++ [Val.string x]))) := by
  have h1 := @readTag_item ulower f (.string x) rest (some (Val.string []))
  have h2 := @tagBody_scalar ulower (readTag ulower f) [] (.string x) (.string x) rest
    (some (Val.string []))
    (by simpa [Payload.wf] using hx) rfl
  simp only [kind_string, Payload.encode] at h1 h2
  rw [h2] at h1
  simp [listStep, Val.type, GoType.Elem, zero, h1, storeScalar, valueAt, fieldOf, Val.at,
    GoType.AssignableTo, GoType.same, setAt, Val.put, Append]

theorem listLoop_strings {ulower : Name → Name}
    (f : Nat) (xs : List Name) (acc : List Val) (rest : Stream)
    (hxs : ∀ x ∈ xs, x.length < 2 ^ 15) :
    listLoop (readTag ulower (f + 1)) 8 xs.length
        (Payload.encodeItems (xs.map Payload.string) ++ rest) (some (.slice .string acc))
      = .ok (rest, some (.slice .string (acc ++ xs.map Val.string))) := by
  induction xs generalizing acc with
  | nil => simp [listLoop, Payload.encodeItems]
  | cons x xs ih =>
    have hx : x.length < 2 ^ 15 := hxs x (List.mem_cons_self _ _)
    have hrest : ∀ y ∈ xs, y.length < 2 ^ 15 := fun y hy => hxs y (List.mem_cons_of_mem _ hy)
    simp only [List.map_cons, List.length_cons, encodeItems_cons_append, Payload.encode,
      listLoop]
    rw [listStep_string f x acc _ hx]
    simp only
    rw [ih _ hrest]
    simp


/-! ## A well-formed tag is decoded the same way whatever follows it -/

theorem wfChildren_cons {name : Name} {p : Payload} {cs : List (Name × Payload)}
    (h : Payload.wfChildren ((name, p) :: cs) = true) :
    name.length < 2 ^ 15 ∧ p.wf = true ∧ Payload.wfChildren cs = true := by
  simpa [Payload.wfChildren, and_assoc] using h

theorem wfItems_cons {t : Byte} {p : Payload} {ps : List Payload}
    (h : Payload.wfItems t (p :: ps) = true) :
    p.kind = t ∧ p.wf = true ∧ Payload.wfItems t ps = true := by
  simpa [Payload.wfItems, and_assoc] using h

theorem compoundLoop_children {rt : TagType → Stream → Option Val → Res TagOut}
    (hrt : Respects rt) (cs : List (Name × Payload)) (hwf : Payload.wfChildren cs = true) :
    ∀ (n n2 : Nat) (d : Option Val) (rest : Stream), cs.length + 1 ≤ n → cs.length + 1 ≤ n2 →
      compoundLoop rt n (Payload.encodeChildren cs ++ rest) d
        = withRest2 rest (compoundLoop rt n2 (Payload.encodeChildren cs) d) := by
  induction cs with
  | nil =>
    intro n n2 d rest hn hn2
    obtain ⟨n, rfl⟩ : ∃ k, n = k + 1 := ⟨n - 1, by omega⟩
    obtain ⟨n2, rfl⟩ : ∃ k, n2 = k + 1 := ⟨n2 - 1, by omega⟩
    simp only [Payload.encodeChildren, List.cons_append, List.nil_append, compoundLoop]
    rw [hrt.stop d rest]
    cases h : rt TAG_UNKNOWN [0] d with
    | error e => rfl
    | ok o => simp [withRest, withRest2, hrt.stopType d o h]
  | cons c cs ih =>
    obtain ⟨name, p⟩ := c
    obtain ⟨hname, hp, hcs⟩ := wfChildren_cons hwf
    intro n n2 d rest hn hn2
    obtain ⟨n, rfl⟩ : ∃ k, n = k + 1 := ⟨n - 1, by omega⟩
    obtain ⟨n2, rfl⟩ : ∃ k, n2 = k + 1 := ⟨n2 - 1, by omega⟩
    have e2 := encodeChildren_cons_append name p cs []
    simp only [List.append_nil] at e2
    rw [encodeChildren_cons_append, e2]
    simp only [compoundLoop]
    rw [hrt.named name p d _ hp hname, hrt.named name p d (Payload.encodeChildren cs) hp hname]
    cases h : rt TAG_UNKNOWN (encodeTag name p) d with
    | error e => rfl
    | ok o =>
      have hne := hrt.namedType name p d o hp hname h
      simp only [withRest, hne, if_false]
      exact ih hcs n n2 o.data rest (by simpa using hn) (by simpa using hn2)

theorem length_encodeChildren (cs : List (Name × Payload)) :
    cs.length + 1 ≤ (Payload.encodeChildren cs).length := by
  induction cs with
  | nil => simp [Payload.encodeChildren]
  | cons c cs ih =>
    obtain ⟨name, p⟩ := c
    simp only [Payload.encodeChildren, List.length_cons, List.length_append]
    omega

theorem ReadCompound_children {rt : TagType → Stream → Option Val → Res TagOut}
    (hrt : Respects rt) (cs : List (Name × Payload)) (hwf : Payload.wfChildren cs = true)
    (d : Option Val) (rest : Stream) :
    ReadCompound rt (Payload.encodeChildren cs ++ rest) d
      = withRest2 rest (ReadCompound rt (Payload.encodeChildren cs) d) := by
  have h := length_encodeChildren cs
  exact compoundLoop_children hrt cs hwf _ _ d rest
    (by simp only [List.length_append]; omega) (by omega)

theorem listStep_item {rt : TagType → Stream → Option Val → Res TagOut}
    (hrt : Respects rt) (p : Payload) (hp : p.wf = true) (d : Option Val) (rest : Stream) :
    listStep rt p.kind.val (p.encode ++ rest) d
      = withRest2 rest (listStep rt p.kind.val p.encode d) := by
  cases d with
  | none =>
    simp only [listStep]
    rw [hrt.item p none rest hp]
    cases rt p.kind.val p.encode none <;> rfl
  | some v =>
    simp only [listStep]
    cases v.type.Elem with
    | error e => rfl
    | ok t =>
      simp only
      rw [hrt.item p _ rest hp]
      cases rt p.kind.val p.encode (some (zero t)) with
      | error e => rfl
      | ok o =>
        simp only [withRest]
        cases Append v (o.data.getD (zero t)) <;> rfl

theorem listLoop_items {rt : TagType → Stream → Option Val → Res TagOut}
    (hrt : Respects rt) (t : Byte) (ps : List Payload) (hwf : Payload.wfItems t ps = true) :
    ∀ (d : Option Val) (rest : Stream),
      listLoop rt t.val ps.length (Payload.encodeItems ps ++ rest) d
        = withRest2 rest (listLoop rt t.val ps.length (Payload.encodeItems ps) d) := by
  induction ps with
  | nil => intro d rest; simp [listLoop, Payload.encodeItems, withRest2]
  | cons p ps ih =>
    obtain ⟨hk, hp, hps⟩ := wfItems_cons hwf
    intro d rest
    have e2 := encodeItems_cons_append p ps []
    simp only [List.append_nil] at e2
    rw [encodeItems_cons_append, e2]
    simp only [List.length_cons, listLoop]
    rw [← hk, listStep_item hrt p hp d _, listStep_item hrt p hp d (Payload.encodeItems ps)]
    cases h : listStep rt p.kind.val p.encode d with
    | error e => rfl
    | ok x =>
      obtain ⟨r1, d1⟩ := x
      simp only [withRest2]
      rw [hk]
      exact ih hps d1 rest

theorem ReadList_items {rt : TagType → Stream → Option Val → Res TagOut}
    (hrt : Respects rt) (t : Byte) (ps : List Payload) (hlen : ps.length < 2 ^ 31)
    (hwf : Payload.wfItems t ps = true) (d : Option Val) (rest : Stream) :
    ReadList rt ((Payload.list t ps).encode ++ rest) d
      = withRest2 rest (ReadList rt (Payload.list t ps).encode d) := by
  simp only [Payload.encode, ReadList, ReadByte, List.cons_append, List.append_assoc]
  rw [ReadInt_beBytes _ _ hlen]
  have h0 := ReadInt_beBytes ps.length (Payload.encodeItems ps) hlen
  rw [h0]
  simp only [Int.toNat_ofNat]
  exact listLoop_items hrt t ps hwf d rest

theorem tagBody_type {ulower : Name → Name}
    (rt : TagType → Stream → Option Val → Res TagOut) (name : Name)
    (k : TagType) (r : Stream) (d : Option Val) (o : TagOut)
    (h : tagBody ulower rt name k r d = .ok o) : o.newTagType = k ∧ o.name = name := by
  unfold tagBody at h
  split at h
  all_goals dsimp only at h
  all_goals first
    | (split at h
       · cases h
       · cases h; exact ⟨rfl, rfl⟩)
    | (cases h; exact ⟨rfl, rfl⟩)

theorem tagBody_rest {ulower : Name → Name} {rt : TagType → Stream → Option Val → Res TagOut}
    (hrt : Respects rt) (name : Name) (p : Payload) (hp : p.wf = true) (d : Option Val)
    (rest : Stream) :
    tagBody ulower rt name p.kind.val (p.encode ++ rest) d
      = withRest rest (tagBody ulower rt name p.kind.val p.encode d) := by
  cases hv : p.temp with
  | some v =>
    have h1 := @tagBody_scalar ulower rt name p v rest d hp hv
    have h2 := @tagBody_scalar ulower rt name p v [] d hp hv
    rw [List.append_nil] at h2
    rw [h1, h2]
    rfl
  | none =>
    cases p <;> simp only [Payload.temp, reduceCtorEq] at hv
    · rename_i t ps
      simp only [Payload.wf, Bool.and_eq_true, decide_eq_true_eq] at hp
      simp only [kind_list, tagBody_list]
      rw [ReadList_items hrt t ps hp.1 hp.2]
      cases ReadList rt (Payload.list t ps).encode (valueAt d (fieldOf ulower d name)) with
      | error e => rfl
      | ok x => rfl
    · rename_i cs
      simp only [Payload.wf] at hp
      simp only [kind_compound, tagBody_compound, Payload.encode]
      rw [ReadCompound_children hrt cs hp]
      cases ReadCompound rt (Payload.encodeChildren cs) (valueAt d (fieldOf ulower d name)) with
      | error e => rfl
      | ok x => rfl

theorem readTag_stop {ulower : Name → Name} (f : Nat) (rest : Stream) (d : Option Val) :
    readTag ulower (f + 1) TAG_UNKNOWN ((0 : Byte) :: rest) d = .ok ⟨rest, d, [], TAG_END⟩ := by
  simp [readTag, readHeader, ReadByte, TAG_UNKNOWN, TAG_END]

theorem respects_readTag {ulower : Name → Name} : ∀ f : Nat, Respects (readTag ulower f)
  | 0 =>
    { item := fun _ _ _ _ => rfl
      named := fun _ _ _ _ _ _ => rfl
      namedType := fun _ _ _ _ _ _ h => by simp [readTag] at h
      stop := fun _ _ => rfl
      stopType := fun _ _ h => by simp [readTag] at h }
  | f + 1 =>
    { item := fun p d rest hp => by
        have h2 := @readTag_item ulower f p [] d
        rw [List.append_nil] at h2
        rw [readTag_item, h2]
        exact tagBody_rest (respects_readTag f) [] p hp d rest
      named := fun name p d rest hp hn => by
        have h2 := @readTag_named ulower f name p [] d hn
        simp only [List.append_nil] at h2
        rw [readTag_named f name p rest d hn, h2]
        exact tagBody_rest (respects_readTag f) name p hp d rest
      namedType := fun name p d o hp hn h => by
        have h2 := @readTag_named ulower f name p [] d hn
        simp only [List.append_nil] at h2
        rw [h2] at h
        rw [(tagBody_type _ _ _ _ _ _ h).1]
        exact kind_ne_zero p
      stop := fun d rest => by
        rw [readTag_stop, readTag_stop]
        rfl
      stopType := fun d o h => by
        rw [readTag_stop] at h
        cases h
        rfl }


/-! ## A tag decoded with no target -/

theorem depth_pos (p : Payload) : 1 ≤ p.depth := by
  cases p <;> simp [Payload.depth]

theorem compoundLoop_discard {rt : TagType → Stream → Option Val → Res TagOut} {m : Nat}
    (hrt : Discards rt m) (cs : List (Name × Payload)) (hwf : Payload.wfChildren cs = true)
    (hd : Payload.depthChildren cs ≤ m) :
    ∀ (n : Nat) (rest : Stream), cs.length + 1 ≤ n →
      compoundLoop rt n (Payload.encodeChildren cs ++ rest) none = .ok (rest, none) := by
  induction cs with
  | nil =>
    intro n rest hn
    obtain ⟨n, rfl⟩ : ∃ k, n = k + 1 := ⟨n - 1, by omega⟩
    simp only [Payload.depthChildren] at hd
    simp [Payload.encodeChildren, compoundLoop, hrt.stop rest hd]
  | cons c cs ih =>
    obtain ⟨name, p⟩ := c
    obtain ⟨hname, hp, hcs⟩ := wfChildren_cons hwf
    simp only [Payload.depthChildren, max_le_iff] at hd
    intro n rest hn
    obtain ⟨n, rfl⟩ : ∃ k, n = k + 1 := ⟨n - 1, by omega⟩
    rw [encodeChildren_cons_append,
      compoundLoop_cons rt n _ none _ (hrt.named name p _ hp hname hd.1) (kind_ne_zero p)]
    exact ih hcs hd.2 n rest (by simpa using hn)

theorem listLoop_discard {rt : TagType → Stream → Option Val → Res TagOut} {m : Nat}
    (hrt : Discards rt m) (t : Byte) (ps : List Payload) (hwf : Payload.wfItems t ps = true)
    (hd : Payload.depthItems ps ≤ m) :
    ∀ (rest : Stream),
      listLoop rt t.val ps.length (Payload.encodeItems ps ++ rest) none = .ok (rest, none) := by
  induction ps with
  | nil => intro rest; simp [listLoop, Payload.encodeItems]
  | cons p ps ih =>
    obtain ⟨hk, hp, hps⟩ := wfItems_cons hwf
    simp only [Payload.depthItems, max_le_iff] at hd
    intro rest
    rw [encodeItems_cons_append]
    simp only [List.length_cons, listLoop, listStep]
    rw [← hk, hrt.item p _ hp hd.1]
    simp only
    rw [hk]
    exact ih hps hd.2 rest

theorem valueAt_none (d : Option Val) : valueAt d none = none := by
  cases d <;> rfl

theorem setAt_none (d : Option Val) (v : Option Val) : setAt d none v = d := by
  cases d <;> rfl

theorem storeScalar_none (d : Option Val) (v : Val) : storeScalar d none v = d := by
  simp [storeScalar, valueAt_none]

/-- The body of `readTag` on a well-formed tag whose name resolves to no field: the tag is
consumed and the target is not touched. -/
theorem tagBody_discard {ulower : Name → Name}
    {rt : TagType → Stream → Option Val → Res TagOut} {m : Nat}
    (hrt : Discards rt m) (name : Name) (p : Payload) (hp : p.wf = true)
    (hd : p.depth ≤ m + 1) (d : Option Val) (hf : fieldOf ulower d name = none) (rest : Stream) :
    tagBody ulower rt name p.kind.val (p.encode ++ rest) d = .ok ⟨rest, d, name, p.kind.val⟩ := by
  cases hv : p.temp with
  | some v => rw [tagBody_scalar rt name p v rest d hp hv, hf, storeScalar_none]
  | none =>
    cases p <;> simp only [Payload.temp, reduceCtorEq] at hv
    · rename_i t ps
      simp only [Payload.wf, Bool.and_eq_true, decide_eq_true_eq] at hp
      simp only [Payload.depth] at hd
      simp only [kind_list, tagBody_list, hf, valueAt_none, setAt_none, Payload.encode, ReadList,
        ReadByte, List.cons_append, List.append_assoc]
      rw [ReadInt_beBytes _ _ hp.1]
      simp only [Int.toNat_ofNat]
      rw [listLoop_discard hrt t ps hp.2 (by omega) rest]
    · rename_i cs
      simp only [Payload.wf] at hp
      simp only [Payload.depth] at hd
      simp only [kind_compound, tagBody_compound, hf, valueAt_none, setAt_none, Payload.encode]
      have hl := length_encodeChildren cs
      rw [ReadCompound, compoundLoop_discard hrt cs hp (by omega) _ rest
        (by simp only [List.length_append]; omega)]

theorem fieldOf_none {ulower : Name → Name} (name : Name) : fieldOf ulower none name = none := by
  by_cases h : name = [] <;> simp [fieldOf, h]

theorem discards_readTag {ulower : Name → Name} : ∀ f : Nat, Discards (readTag ulower f) f
  | 0 =>
    { item := fun p _ _ hd => absurd (depth_pos p) (by omega)
      named := fun _ p _ _ _ hd => absurd (depth_pos p) (by omega)
      stop := fun _ h => absurd h (by omega) }
  | f + 1 =>
    { item := fun p rest hp hd => by
        rw [readTag_item]
        exact tagBody_discard (discards_readTag f) [] p hp hd none (fieldOf_none _) rest
      named := fun name p rest hp hn hd => by
        rw [readTag_named f name p rest none hn]
        exact tagBody_discard (discards_readTag f) name p hp hd none (fieldOf_none _) rest
      stop := fun rest _ => readTag_stop f rest none }

/-- A well-formed named tag whose name resolves to no field of the target is consumed
whole, and the target is not touched. -/
theorem readTag_unbound {ulower : Name → Name}
    (f : Nat) (name : Name) (p : Payload) (d : Option Val) (rest : Stream)
    (hp : p.wf = true) (hn : name.length < 2 ^ 15) (hd : p.depth ≤ f + 1)
    (hf : fieldOf ulower d name = none) :
    readTag ulower (f + 1) TAG_UNKNOWN (encodeTag name p ++ rest) d
      = .ok ⟨rest, d, name, p.kind.val⟩ := by
  rw [readTag_named f name p rest d hn]
  exact tagBody_discard (discards_readTag f) name p hp hd d hf rest


/-! ## Decoding does not change how the target binds names -/

theorem sameShape_refl {ulower : Name → Name} (a : Option Val) : sameShape ulower a a := ⟨rfl, rfl⟩

theorem sameShape_trans {ulower : Name → Name}
    {a b c : Option Val} (h1 : sameShape ulower a b) (h2 : sameShape ulower b c) :
    sameShape ulower a c := ⟨h1.1.trans h2.1, h1.2.trans h2.2⟩

theorem fieldOf_sameShape {ulower : Name → Name}
    {a b : Option Val} (h : sameShape ulower a b) (name : Name) :
    fieldOf ulower a name = fieldOf ulower b name := by
  obtain ⟨h1, h2⟩ := h
  cases a <;> cases b <;> simp_all [fieldOf]

theorem fieldEntries_fieldPut {ulower : Name → Name}
    (fs : List (FieldOf Val)) (i k : Nat) (v : Val) :
    fieldEntries ulower k (fieldPut fs i v) = fieldEntries ulower k fs := by
  induction fs generalizing i k with
  | nil => rfl
  | cons f fs ih =>
    cases i with
    | zero => simp [fieldPut, fieldEntries]
    | succ i => simp [fieldPut, fieldEntries, ih]

theorem sameShape_put_field {ulower : Name → Name} (dv : Val) (i : Nat) (x : Val) :
    sameShape ulower (some dv) (some (dv.put (Sel.field i) x)) := by
  cases dv <;> simp [sameShape, Val.put, StructFields, fieldEntries_fieldPut]

theorem setAt_shape {ulower : Name → Name} (d : Option Val) (sel : Option Sel) (v : Option Val)
    (h : sameShape ulower (valueAt d sel) v) : sameShape ulower d (setAt d sel v) := by
  cases d with
  | none => cases sel <;> cases v <;> exact sameShape_refl _
  | some dv =>
    cases sel with
    | none => cases v <;> exact sameShape_refl _
    | some s =>
      cases v with
      | none => exact sameShape_refl _
      | some x =>
        cases s with
        | self => simpa [setAt, Val.put, valueAt, Val.at] using h
        | field i => exact sameShape_put_field dv i x

theorem same_not_struct {ulower : Name → Name}
    (dv temp : Val) (h : GoType.same dv.type temp.type = true)
    (ht : StructFields ulower (some temp) = []) : StructFields ulower (some dv) = [] := by
  cases dv <;> cases temp <;> simp_all [Val.type, GoType.same, StructFields]

theorem storeScalar_shape {ulower : Name → Name} (d : Option Val) (sel : Option Sel) (temp : Val)
    (ht : StructFields ulower (some temp) = []) : sameShape ulower d (storeScalar d sel temp) := by
  unfold storeScalar
  cases hv : valueAt d sel with
  | none => exact sameShape_refl _
  | some f =>
    simp only
    split
    · rename_i hassign
      cases d with
      | none => simp [valueAt] at hv
      | some dv =>
        cases sel with
        | none => simp [valueAt] at hv
        | some s =>
          cases s with
          | self =>
            simp only [valueAt, Val.at, Option.some.injEq] at hv
            subst hv
            have h0 := same_not_struct dv temp hassign ht
            simp [setAt, Val.put, sameShape, h0, ht]
          | field i => exact sameShape_put_field dv i temp
    · exact sameShape_refl _

theorem compoundLoop_shape {ulower : Name → Name} {rt : TagType → Stream → Option Val → Res TagOut}
    (hrt : KeepsShape ulower rt) :
    ∀ (n : Nat) (r : Stream) (d : Option Val) (x : Stream × Option Val),
      compoundLoop rt n r d = .ok x → sameShape ulower d x.2
  | 0, _, _, _, h => by simp [compoundLoop] at h
  | n + 1, r, d, x, h => by
    simp only [compoundLoop] at h
    cases hr : rt TAG_UNKNOWN r d with
    | error e => rw [hr] at h; cases h
    | ok o =>
      rw [hr] at h
      simp only at h
      have h1 := hrt _ _ _ _ hr
      split at h
      · cases h; exact h1
      · exact sameShape_trans h1 (compoundLoop_shape hrt n _ _ x h)

theorem Append_shape {ulower : Name → Name} (dv x r : Val) (h : Append dv x = .ok r) :
    sameShape ulower (some dv) (some r) := by
  cases dv <;> simp [Append] at h
  subst h
  simp [sameShape, StructFields]

theorem listStep_shape {ulower : Name → Name}
    (rt : TagType → Stream → Option Val → Res TagOut) (t : TagType)
    (r : Stream) (d : Option Val) (x : Stream × Option Val)
    (h : listStep rt t r d = .ok x) : sameShape ulower d x.2 := by
  cases d with
  | none =>
    simp only [listStep] at h
    cases hr : rt t r none with
    | error e => rw [hr] at h; cases h
    | ok o => rw [hr] at h; cases h; exact sameShape_refl _
  | some dv =>
    simp only [listStep] at h
    cases he : dv.type.Elem with
    | error e => rw [he] at h; cases h
    | ok et =>
      rw [he] at h
      simp only at h
      cases hr : rt t r (some (zero et)) with
      | error e => rw [hr] at h; cases h
      | ok o =>
        rw [hr] at h
        simp only at h
        cases ha : Append dv (o.data.getD (zero et)) with
        | error e => rw [ha] at h; cases h
        | ok d2 =>
          rw [ha] at h
          cases h
          exact Append_shape _ _ _ ha

theorem listLoop_shape {ulower : Name → Name}
    (rt : TagType → Stream → Option Val → Res TagOut) (t : TagType) :
    ∀ (n : Nat) (r : Stream) (d : Option Val) (x : Stream × Option Val),
      listLoop rt t n r d = .ok x → sameShape ulower d x.2
  | 0, _, _, _, h => by simp only [listLoop] at h; cases h; exact sameShape_refl _
  | n + 1, r, d, x, h => by
    simp only [listLoop] at h
    cases hs : listStep rt t r d with
    | error e => rw [hs] at h; cases h
    | ok y =>
      rw [hs] at h
      exact sameShape_trans (listStep_shape rt t r d y hs) (listLoop_shape rt t n _ _ x h)

theorem ReadList_shape {ulower : Name → Name} (rt : TagType → Stream → Option Val → Res TagOut)
    (r : Stream) (d : Option Val) (x : Stream × Option Val)
    (h : ReadList rt r d = .ok x) : sameShape ulower d x.2 := by
  simp only [ReadList] at h
  cases hb : ReadByte r with
  | error e => rw [hb] at h; cases h
  | ok b =>
    rw [hb] at h
    simp only at h
    cases hi : ReadInt b.2 with
    | error e => rw [hi] at h; cases h
    | ok i =>
      rw [hi] at h
      exact listLoop_shape rt _ _ _ _ x h

theorem tagBody_shape {ulower : Name → Name} {rt : TagType → Stream → Option Val → Res TagOut}
    (hrt : KeepsShape ulower rt) (name : Name) (k : TagType) (r : Stream) (d : Option Val)
    (o : TagOut)
    (h : tagBody ulower rt name k r d = .ok o) : sameShape ulower d o.data := by
  unfold tagBody at h
  split at h
  all_goals dsimp only at h
  case h_10 =>
    cases hc : ReadCompound rt r (valueAt d (fieldOf ulower d name)) with
    | error e => rw [hc] at h; cases h
    | ok x =>
      rw [hc] at h
      cases h
      exact setAt_shape _ _ _ (compoundLoop_shape hrt _ _ _ x hc)
  case h_11 =>
    cases hc : ReadList rt r (valueAt d (fieldOf ulower d name)) with
    | error e => rw [hc] at h; cases h
    | ok x =>
      rw [hc] at h
      cases h
      exact setAt_shape _ _ _ (ReadList_shape rt _ _ x hc)
  case h_12 => cases h; exact sameShape_refl _
  all_goals
    split at h
    · cases h
    · cases h
      exact storeScalar_shape _ _ _ rfl

theorem keepsShape_readTag {ulower : Name → Name} : ∀ f : Nat, KeepsShape ulower (readTag ulower f)
  | 0 => fun _ _ _ _ h => by simp [readTag] at h
  | f + 1 => fun tt r d o h => by
    rw [readTag] at h
    cases hh : readHeader tt r with
    | error e => rw [hh] at h; cases h
    | ok hd =>
      rw [hh] at h
      cases hd with
      | stop r1 => cases h; exact sameShape_refl _
      | tag name k r1 => exact tagBody_shape (keepsShape_readTag f) name k r1 d o h


/-! ## Inserting a tag that is skipped -/

mutual
theorem depth_le_length : ∀ p : Payload, p.depth ≤ p.encode.length + 1
  | .byte _ => by simp [Payload.depth]
  | .short _ => by simp [Payload.depth]
  | .int _ => by simp [Payload.depth]
  | .long _ => by simp [Payload.depth]
  | .float _ => by simp [Payload.depth]
  | .double _ => by simp [Payload.depth]
  | .byteArray _ => by simp [Payload.depth]
  | .string _ => by simp [Payload.depth]
  | .intArray _ => by simp [Payload.depth]
  | .list t ps => by
    have h := depthItems_le_length ps
    simp only [Payload.depth, Payload.encode, List.length_cons, List.length_append,
      beBytes_length]
    omega
  | .compound cs => by
    have h := depthChildren_le_length cs
    simp only [Payload.depth, Payload.encode]
    omega
theorem depthItems_le_length : ∀ ps : List Payload,
    Payload.depthItems ps ≤ (Payload.encodeItems ps).length + 1
  | [] => by simp [Payload.depthItems]
  | p :: ps => by
    have h1 := depth_le_length p
    have h2 := depthItems_le_length ps
    simp only [Payload.depthItems, Payload.encodeItems, List.length_append, max_le_iff]
    omega
theorem depthChildren_le_length : ∀ cs : List (Name × Payload),
    Payload.depthChildren cs ≤ (Payload.encodeChildren cs).length
  | [] => by simp [Payload.depthChildren, Payload.encodeChildren]
  | (_, p) :: cs => by
    have h1 := depth_le_length p
    have h2 := depthChildren_le_length cs
    simp only [Payload.depthChildren, Payload.encodeChildren, List.length_cons,
      List.length_append, max_le_iff]
    omega
end

theorem length_encodeChildren_insert (cs1 cs2 : List (Name × Payload)) (name : Name)
    (p : Payload) :
    (Payload.encodeChildren (cs1 ++ (name, p) :: cs2)).length
      = (Payload.encodeChildren (cs1 ++ cs2)).length + (encodeTag name p).length := by
  induction cs1 with
  | nil => simp [Payload.encodeChildren, encodeTag]; omega
  | cons c cs1 ih =>
    obtain ⟨n, q⟩ := c
    rw [List.cons_append, List.cons_append]
    simp only [Payload.encodeChildren, List.length_cons, List.length_append, ih]
    omega

theorem wfChildren_append (cs1 cs2 : List (Name × Payload)) :
    Payload.wfChildren (cs1 ++ cs2) = (Payload.wfChildren cs1 && Payload.wfChildren cs2) := by
  induction cs1 with
  | nil => simp [Payload.wfChildren]
  | cons c cs1 ih =>
    obtain ⟨n, q⟩ := c
    simp [Payload.wfChildren, ih, Bool.and_assoc]

/-- Inserting a tag that the decoder skips in front of the remaining children of a compound
costs one more iteration of the compound loop and changes nothing else. -/
theorem compoundLoop_insert {ulower : Name → Name} {rt : TagType → Stream → Option Val → Res TagOut}
    (hR : Respects rt) (hK : KeepsShape ulower rt) (name : Name) (p : Payload)
    (cs2 : List (Name × Payload)) (rest : Stream)
    (hskip : ∀ (d : Option Val) (X : Stream), fieldOf ulower d name = none →
      rt TAG_UNKNOWN (encodeTag name p ++ X) d = .ok ⟨X, d, name, p.kind.val⟩)
    (cs1 : List (Name × Payload)) (hwf : Payload.wfChildren cs1 = true) :
    ∀ (n : Nat) (d : Option Val) (res : Stream × Option Val), fieldOf ulower d name = none →
      compoundLoop rt n (Payload.encodeChildren (cs1 ++ cs2) ++ rest) d = .ok res →
      compoundLoop rt (n + 1) (Payload.encodeChildren (cs1 ++ (name, p) :: cs2) ++ rest) d
        = .ok res := by
  induction cs1 with
  | nil =>
    intro n d res hf h
    simp only [List.nil_append] at h ⊢
    rw [encodeChildren_cons_append,
      compoundLoop_cons rt n _ d _ (hskip d _ hf) (kind_ne_zero p)]
    exact h
  | cons c cs1 ih =>
    obtain ⟨cn, cp⟩ := c
    obtain ⟨hcn, hcp, hcs⟩ := wfChildren_cons hwf
    intro n d res hf h
    cases n with
    | zero => simp [compoundLoop] at h
    | succ n =>
      simp only [List.cons_append] at h ⊢
      rw [encodeChildren_cons_append] at h ⊢
      simp only [compoundLoop] at h
      rw [hR.named cn cp d _ hcp hcn] at h
      cases hc : rt TAG_UNKNOWN (encodeTag cn cp) d with
      | error e => rw [hc] at h; cases h
      | ok o =>
        rw [hc] at h
        have hne := hR.namedType cn cp d o hcp hcn hc
        simp only [withRest, hne, if_false] at h
        have hstep : rt TAG_UNKNOWN
            (encodeTag cn cp ++ (Payload.encodeChildren (cs1 ++ (name, p) :: cs2) ++ rest)) d
            = .ok ⟨Payload.encodeChildren (cs1 ++ (name, p) :: cs2) ++ rest, o.data, o.name,
                o.newTagType⟩ := by
          rw [hR.named cn cp d _ hcp hcn, hc]
          rfl
        rw [compoundLoop_cons rt (n + 1) _ d _ hstep hne]
        have hf2 : fieldOf ulower o.data name = none := by
          rw [← fieldOf_sameShape (hK _ _ _ _ hc) name]
          exact hf
        exact ih hcs n o.data res hf2 h

/-! ## The End tag at the root -/

/-- C4. For every target value and every stream whose first byte is 0 (the End tag), `Read`
succeeds, consumes exactly that one byte and leaves the target as it was before the call. -/
theorem Read_end_tag (ulower : Name → Name) (data : Val) (rest : Stream) :
    Read ulower ((0 : Byte) :: rest) data = .ok (rest, data) := by
  simp [Read, readTag, readHeader, ReadByte, TAG_UNKNOWN, TAG_END]

/-! ## Negative lengths -/

/-- C7. When the next four bytes are a negative big-endian signed 32-bit length,
`ReadByteArray` and `ReadIntArray` both fail (the `make` panics): no array is returned, and
since this holds whatever follows the four bytes, nothing after the length is needed. -/
theorem negative_array_length_panics (b0 b1 b2 b3 : Byte) (rest : Stream)
    (h : toSigned 32 (beNat [b0, b1, b2, b3]) < 0) :
    ReadByteArray (b0 :: b1 :: b2 :: b3 :: rest) = .error .panic
      ∧ ReadIntArray (b0 :: b1 :: b2 :: b3 :: rest) = .error .panic := by
  simp [ReadByteArray, ReadIntArray, ReadInt_cons4, makeLen, h]

/-- C7, at the length -2 with three more bytes in the stream. -/
theorem negative_array_length_panics_witness :
    toSigned 32 (beNat [255, 255, 255, 254]) < 0
      ∧ (ReadByteArray (255 :: 255 :: 255 :: 254 :: [1, 2, 3]) = .error .panic
        ∧ ReadIntArray (255 :: 255 :: 255 :: 254 :: [1, 2, 3]) = .error .panic) :=
  ⟨by decide, negative_array_length_panics 255 255 255 254 [1, 2, 3] (by decide)⟩

/-- C8 does not hold: a List of Int with count -1 decodes without failure. `ReadList` returns
after the five header bytes, and `Read` of a root compound holding such a list bound to
`L []int32` succeeds and leaves the target as it was. -/
theorem negative_list_count_succeeds :
    ReadList (readTag noUnicode 1) [3, 255, 255, 255, 255, 7] (some (Val.slice .int32 []))
        = .ok ([7], some (Val.slice .int32 []))
      ∧ Read noUnicode ([10, 0, 1, 84] ++ [9, 0, 1, 76, 3, 255, 255, 255, 255] ++ [0])
          (listTarget [])
        = .ok ([], listTarget []) :=
  ⟨rfl, rfl⟩

/-- C8, amended. For every element-type byte and every negative count, `ReadList` succeeds:
it consumes the five header bytes, decodes no element and returns the slot it was given,
as for an empty list. -/
theorem ReadList_negative_count (rt : TagType → Stream → Option Val → Res TagOut)
    (t b0 b1 b2 b3 : Byte) (rest : Stream) (data : Option Val)
    (h : toSigned 32 (beNat [b0, b1, b2, b3]) < 0) :
    ReadList rt (t :: b0 :: b1 :: b2 :: b3 :: rest) data = .ok (rest, data) := by
  have h0 : (toSigned 32 (beNat [b0, b1, b2, b3])).toNat = 0 := by omega
  simp [ReadList, ReadByte, ReadInt_cons4, h0, listLoop]

/-- C8 amended, at element type Compound and count -1, with a slot holding one element and
two more bytes in the stream. -/
theorem ReadList_negative_count_witness :
    toSigned 32 (beNat [255, 255, 255, 255]) < 0
      ∧ ReadList (readTag noUnicode 5) (10 :: 255 :: 255 :: 255 :: 255 :: [1, 2])
          (some (Val.slice .int32 [Val.int32 4]))
        = .ok ([1, 2], some (Val.slice .int32 [Val.int32 4])) :=
  ⟨by decide, ReadList_negative_count (readTag noUnicode 5) 10 255 255 255 255 [1, 2] _ (by decide)⟩

/-! ## String lengths -/

/-- C9 does not hold from 32768 on: the length prefix 0x8000 followed by 32768 bytes makes
`ReadString` panic (the prefix is read as the int16 -32768, and `make` refuses it). -/
theorem ReadString_length_32768_panics :
    (List.replicate 32768 (0 : Byte)).length = 32768
      ∧ ReadString (beBytes 2 32768 ++ List.replicate 32768 (0 : Byte)) = .error .panic :=
  ⟨List.length_replicate _ _, by decide⟩

/-- C9, amended. For a length `L` from 0 to 32767, and a stream that starts with the 2-byte
big-endian encoding of `L` followed by `L` bytes `s` and anything else, `ReadString` succeeds,
returns exactly `s` and leaves exactly what follows `s` (it consumes `2 + L` bytes). For a
length from 32768 to 65535 it panics. -/
theorem ReadString_length_range (s : Name) (rest : Stream) (h : s.length ≤ 65535) :
    ReadString (beBytes 2 s.length ++ (s ++ rest))
      = if s.length ≤ 32767 then .ok (s, rest) else .error .panic := by
  by_cases hs : s.length ≤ 32767
  · rw [if_pos hs]
    have h2 := ReadString_encode s rest (by omega)
    rwa [encodeString, List.append_assoc] at h2
  · rw [if_neg hs]
    have h1 : s.length % 256 ^ 2 = s.length := Nat.mod_eq_of_lt (by omega)
    have h3 : toSigned 16 s.length < 0 := by
      have : ¬ s.length < 2 ^ (16 - 1) := by omega
      simp only [toSigned, this, if_false]
      omega
    rw [ReadString, ReadShort, binaryRead_beBytes, h1]
    simp [makeLen, h3]

/-- C9 amended, at the string "Eggbert" followed by two more bytes. -/
theorem ReadString_length_range_witness :
    (ascii "Eggbert").length ≤ 65535
      ∧ ReadString (beBytes 2 (ascii "Eggbert").length ++ (ascii "Eggbert" ++ [1, 2]))
        = if (ascii "Eggbert").length ≤ 32767 then .ok (ascii "Eggbert", [1, 2])
          else .error .panic :=
  ⟨by decide, ReadString_length_range (ascii "Eggbert") [1, 2] (by decide)⟩

/-! ## Short reads -/

/-- C10, the code at a truncated payload. With a declared length of 2 and a single byte left,
`ReadByteArray` and `ReadString` return the two-byte value `[7, 0]`: the second byte was never in
the stream. With nothing left after the prefix they fail, and so does the fixed-width `ReadInt`
on a stream of three bytes. -/
theorem short_read_is_padded :
    ReadByteArray [0, 0, 0, 2, 7] = .ok ([7, 0], [])
      ∧ ReadString [0, 2, 7] = .ok ([7, 0], [])
      ∧ ReadByteArray [0, 0, 0, 2] = .error .io
      ∧ ReadString [0, 2] = .error .io
      ∧ ReadInt [0, 0, 7] = .error .io := by
  decide

/-! ## A list bound to a field that is not a slice -/

/-- C6, the code at a List of one Int named "X" inside the root compound "T", decoded into
`struct T { X int32 }`: `Read` fails with a panic (`Type().Elem()` of a type that is not a
slice), although the stream is well formed. -/
theorem list_into_int_field_panics :
    Read noUnicode ([10, 0, 1, 84] ++ [9, 0, 1, 88, 3, 0, 0, 0, 1, 0, 0, 0, 5] ++ [0]) (intTarget 0)
      = .error .panic :=
  rfl

/-! ## A scalar tag bound to a field of another type -/

/-- C5. A tag of one of the nine scalar kinds (its decoded value is `v`) whose name resolves
to a field `fv` of `data` with a type other than the type of `v`: `readTag` returns without
failure, has consumed exactly the header and the payload of the tag, and leaves the whole
target, hence the bound slot, as it was; the caller goes on at the byte after the tag. -/
theorem mismatched_scalar_is_skipped (ulower : Name → Name)
    (fuel : Nat) (name : Name) (p : Payload) (v fv : Val)
    (sel : Sel) (rest : Stream) (data : Val)
    (hn : name.length < 2 ^ 15) (hwf : p.wf = true) (hv : p.temp = some v)
    (hsel : fieldOf ulower (some data) name = some sel) (hfv : data.at sel = some fv)
    (hty : fv.type ≠ v.type) :
    readTag ulower (fuel + 1) TAG_UNKNOWN (encodeTag name p ++ rest) (some data)
      = .ok ⟨rest, some data, name, p.kind.val⟩ := by
  rw [readTag_named fuel name p rest (some data) hn, tagBody_scalar _ name p v rest _ hwf hv]
  have hs : GoType.same fv.type v.type = false := by
    cases h : GoType.same fv.type v.type with
    | false => rfl
    | true => exact absurd (same_temp_type p v _ hv h) hty
  simp [storeScalar, valueAt, hsel, hfv, GoType.AssignableTo, hs]

/-- C5, at an Int tag named "X" bound to a string field. -/
theorem mismatched_scalar_is_skipped_witness :
    (ascii "X").length < 2 ^ 15 ∧ (Payload.int 5).wf = true
      ∧ (Payload.int 5).temp = some (Val.int32 5)
      ∧ fieldOf noUnicode (some (stringTarget (ascii "old"))) (ascii "X") = some (Sel.field 0)
      ∧ (stringTarget (ascii "old")).at (Sel.field 0) = some (Val.string (ascii "old"))
      ∧ (Val.string (ascii "old")).type ≠ (Val.int32 5).type
      ∧ readTag noUnicode (0 + 1) TAG_UNKNOWN (encodeTag (ascii "X") (Payload.int 5) ++ [0])
          (some (stringTarget (ascii "old")))
        = .ok ⟨[0], some (stringTarget (ascii "old")), ascii "X", (Payload.int 5).kind.val⟩ :=
  ⟨by decide, by decide, rfl, rfl, rfl, by simp [Val.type],
    mismatched_scalar_is_skipped noUnicode 0 (ascii "X") (Payload.int 5) (Val.int32 5)
      (Val.string (ascii "old")) (Sel.field 0) [0] (stringTarget (ascii "old"))
      (by decide) (by decide) rfl rfl rfl (by simp [Val.type])⟩


/-! ## The end-to-end scenarios -/

theorem level_inner {ulower : Name → Name} (k : Nat) (s s0 : Name) (f f0 : Nat) (rest : Stream)
    (hs : s.length ≤ 32767) (hf : f < 2 ^ 32) :
    ReadCompound (readTag ulower (k + 1))
        (Payload.encodeChildren [(ascii "Name", .string s), (ascii "Value", .float f)] ++ rest)
        (some (.struct (ascii "Nested")
          [⟨ascii "Name", [], .string s0⟩, ⟨ascii "Value", [], .float32 f0⟩]))
      = .ok (rest, some (.struct (ascii "Nested")
          [⟨ascii "Name", [], .string s⟩, ⟨ascii "Value", [], .float32 f⟩])) := by
  apply ReadCompound_of_loop _ 3
  · rw [encodeChildren_cons_append, encodeChildren_cons_append, encodeChildren_nil_append]
    rw [compoundLoop_cons _ _ _ _ _
      ((readTag_named k _ _ _ _ (by decide)).trans
        (tagBody_scalar _ _ (.string s) (.string s) _ _
          (by simp [Payload.wf]; omega) rfl)) (by simp [TAG_END])]
    rw [compoundLoop_cons _ _ _ _ _
      ((readTag_named k _ _ _ _ (by decide)).trans
        (tagBody_scalar _ _ (.float f) (.float32 f) _ _
          (by simp [Payload.wf]; omega) rfl)) (by simp [TAG_END])]
    rw [compoundLoop_end]
    rfl
  · simp [Payload.encodeChildren]
    omega

/-- C1. The stream of a root Compound, named "Level" (the target's type name) or with the
empty name, that holds Byte "ByteTest" = `b`, then Compound "Nested" holding String "Name" = `s`
and Float "Value" = `f`, decoded by `Read` into a target
`Level { ByteTest byte; Nested { Name string; Value float32 } }` with any previous content:
`Read` succeeds, consumes the whole encoding, and leaves `ByteTest = b`, `Nested.Name = s` and
`Nested.Value = f` (as a bit pattern). -/
theorem Read_level (ulower : Name → Name)
    (root : Name) (b b0 : Byte) (s s0 : Name) (f f0 : Nat) (rest : Stream)
    (hroot : root = ascii "Level" ∨ root = [])
    (hs : s.length ≤ 32767) (hf : f < 2 ^ 32) :
    Read ulower (encodeTag root (levelTree b s f) ++ rest) (level b0 s0 f0)
      = .ok (rest, level b s f) := by
  have hlen : root.length < 2 ^ 15 := by
    rcases hroot with h | h <;> subst h <;> decide
  have hself : fieldOf ulower (some (level b0 s0 f0)) root = some Sel.self := by
    rcases hroot with h | h <;> subst h <;> rfl
  have key : ∀ k, readTag ulower (k + 3) TAG_UNKNOWN (encodeTag root (levelTree b s f) ++ rest)
      (some (level b0 s0 f0)) = .ok ⟨rest, some (level b s f), root, 10⟩ := by
    intro k
    rw [readTag_named (k + 2) root _ rest _ hlen]
    have hloop : ReadCompound (readTag ulower (k + 2)) ((levelTree b s f).encode ++ rest)
        (some (level b0 s0 f0)) = .ok (rest, some (level b s f)) := by
      apply ReadCompound_of_loop _ 3
      · simp only [levelTree, Payload.encode]
        rw [encodeChildren_cons_append, encodeChildren_cons_append, encodeChildren_nil_append]
        rw [compoundLoop_cons _ _ _ _ _
          ((readTag_named (k + 1) _ _ _ _ (by decide)).trans
            (tagBody_scalar _ _ (.byte b) (.uint8 b) _ _ rfl rfl)) (by simp [TAG_END])]
        have hin := @level_inner ulower k s s0 f f0 ((0 : Byte) :: rest) hs hf
        have h2 : readTag ulower (k + 2) TAG_UNKNOWN
            (encodeTag (ascii "Nested")
              (.compound [(ascii "Name", .string s), (ascii "Value", .float f)])
              ++ ((0 : Byte) :: rest)) (some (level b s0 f0))
            = .ok ⟨(0 : Byte) :: rest, some (level b s f), ascii "Nested", 10⟩ := by
          rw [readTag_named (k + 1) _ _ _ _ (by decide)]
          simp only [kind_compound, tagBody_compound, Payload.encode]
          have hsel : fieldOf ulower (some (level b s0 f0)) (ascii "Nested")
              = some (Sel.field 1) := rfl
          have hval : valueAt (some (level b s0 f0)) (some (Sel.field 1))
              = some (.struct (ascii "Nested")
                [⟨ascii "Name", [], .string s0⟩, ⟨ascii "Value", [], .float32 f0⟩]) := rfl
          rw [hsel, hval, hin]
          rfl
        have h1 : storeScalar (some (level b0 s0 f0))
            (fieldOf ulower (some (level b0 s0 f0)) (ascii "ByteTest")) (Val.uint8 b)
            = some (level b s0 f0) := rfl
        simp only [h1]
        rw [compoundLoop_cons _ _ _ _ _ h2 (by simp [TAG_END])]
        rw [compoundLoop_end]
      · simp [levelTree, Payload.encode, Payload.encodeChildren]
        omega
    have hk10 : (levelTree b s f).kind.val = 10 := rfl
    simp only [hk10, tagBody_compound, hself, valueAt, Val.at, hloop, setAt, Val.put]
  have hbig : ∃ k, (encodeTag root (levelTree b s f) ++ rest).length + 1 = k + 3 :=
    ⟨(encodeTag root (levelTree b s f) ++ rest).length - 2, by
      simp [encodeTag, encodeString, beBytes_length]; omega⟩
  obtain ⟨k, hk⟩ := hbig
  rw [Read, hk, key k]
  rfl

/-- C1, at `b = 0x7f`, `s = "Eggbert"`, `f = 0.5` (bit pattern 0x3f000000) and the root name
"Level". -/
theorem Read_level_witness :
    (ascii "Level" = ascii "Level" ∨ ascii "Level" = [])
      ∧ (ascii "Eggbert").length ≤ 32767 ∧ 0x3f000000 < 2 ^ 32
      ∧ Read noUnicode
          (encodeTag (ascii "Level") (levelTree 0x7f (ascii "Eggbert") 0x3f000000) ++ [])
          (level 0 [] 0)
        = .ok ([], level 0x7f (ascii "Eggbert") 0x3f000000) :=
  ⟨Or.inl rfl, by decide, by decide,
    Read_level noUnicode (ascii "Level") 0x7f 0 (ascii "Eggbert") [] 0x3f000000 0 []
      (Or.inl rfl) (by decide) (by decide)⟩

/-- C2. A List tag named `name` with element type String and count `|xs|` (which has to fit
the signed 4-byte count), followed by the length-prefixed elements of `xs` in order, where
`name` resolves to a field holding an empty `[]string`: `readTag` succeeds, consumes exactly
the tag, and leaves that field equal to `xs`, same length and same order. -/
theorem list_of_strings_decodes (ulower : Name → Name)
    (fuel : Nat) (name : Name) (xs : List Name) (rest : Stream)
    (data : Val) (sel : Sel)
    (hn : name.length < 2 ^ 15) (hcount : xs.length < 2 ^ 31)
    (hxs : ∀ x ∈ xs, x.length ≤ 32767)
    (hsel : fieldOf ulower (some data) name = some sel)
    (hempty : data.at sel = some (.slice .string [])) :
    readTag ulower (fuel + 2) TAG_UNKNOWN
        (encodeTag name (.list 8 (xs.map Payload.string)) ++ rest) (some data)
      = .ok ⟨rest, some (data.put sel (.slice .string (xs.map Val.string))), name, TAG_LIST⟩
    ∧ (data.put sel (.slice .string (xs.map Val.string))).at sel
      = some (.slice .string (xs.map Val.string)) := by
  refine ⟨?_, at_put data sel _ _ hempty⟩
  rw [readTag_named (fuel + 1) name _ rest (some data) hn]
  simp only [kind_list, tagBody_list, hsel, valueAt, hempty, Payload.encode, ReadList, ReadByte,
    List.cons_append, List.append_assoc, List.length_map]
  rw [ReadInt_beBytes _ _ hcount]
  simp only [Int.toNat_ofNat]
  have h := @listLoop_strings ulower fuel xs [] rest (fun x hx => by have := hxs x hx; omega)
  simp only [List.nil_append] at h
  have h8 : ((8 : Byte) : Nat) = 8 := rfl
  rw [h8, h]
  simp [setAt, TAG_LIST]

/-- C2, at the list ["a", "bb"] bound to the field `Names` of `struct T { Names []string }`. -/
theorem list_of_strings_decodes_witness :
    (ascii "Names").length < 2 ^ 15 ∧ [ascii "a", ascii "bb"].length < 2 ^ 31
      ∧ (∀ x ∈ [ascii "a", ascii "bb"], x.length ≤ 32767)
      ∧ fieldOf noUnicode (some (namesTarget [])) (ascii "Names") = some (Sel.field 0)
      ∧ (namesTarget []).at (Sel.field 0) = some (.slice .string [])
      ∧ (readTag noUnicode (0 + 2) TAG_UNKNOWN
          (encodeTag (ascii "Names") (.list 8 ([ascii "a", ascii "bb"].map Payload.string)) ++ [0])
          (some (namesTarget []))
        = .ok ⟨[0], some ((namesTarget []).put (Sel.field 0)
            (.slice .string ([ascii "a", ascii "bb"].map Val.string))), ascii "Names", TAG_LIST⟩
      ∧ ((namesTarget []).put (Sel.field 0)
            (.slice .string ([ascii "a", ascii "bb"].map Val.string))).at (Sel.field 0)
        = some (.slice .string ([ascii "a", ascii "bb"].map Val.string))) :=
  ⟨by decide, by decide, by decide, rfl, rfl,
    list_of_strings_decodes noUnicode 0 (ascii "Names") [ascii "a", ascii "bb"] [0] (namesTarget [])
      (Sel.field 0) (by decide) (by decide) (by decide) rfl rfl⟩


/-! ## Tags the target has no field for -/

/-- C3. Take a root compound named `rootName` with well-formed children `cs1 ++ cs2`, and a
well-formed named tag `(name, p)` of any kind, nested compounds and lists included, whose name
resolves to no field of the value the root compound is decoded into (names are resolved as
`readTag` resolves them, through `strings.ToLower`). If `Read` of the stream
without the tag succeeds, leaving `r2` of the stream and the target `d2`, then `Read` of the
stream with the tag inserted between `cs1` and `cs2` succeeds with the same rest `r2` and the
same target `d2`: every byte of the tag was consumed and the tags after it were decoded as
before. Moreover `readTag` on such a tag alone returns just after the tag's header and
payload, whatever follows, with the target untouched. -/
theorem unknown_tag_is_skipped (ulower : Name → Name)
    (rootName name : Name) (cs1 cs2 : List (Name × Payload))
    (p : Payload) (rest r2 : Stream) (data d2 : Val)
    (hroot : rootName.length < 2 ^ 15)
    (hwf : (Payload.compound (cs1 ++ (name, p) :: cs2)).wf = true)
    (hunbound :
      fieldOf ulower (valueAt (some data) (fieldOf ulower (some data) rootName)) name = none)
    (hbase :
      Read ulower (encodeTag rootName (.compound (cs1 ++ cs2)) ++ rest) data = .ok (r2, d2)) :
    Read ulower (encodeTag rootName (.compound (cs1 ++ (name, p) :: cs2)) ++ rest) data
        = .ok (r2, d2)
      ∧ ∀ (f : Nat) (d : Option Val) (X : Stream), p.depth ≤ f + 1 →
          fieldOf ulower d name = none →
          readTag ulower (f + 1) TAG_UNKNOWN (encodeTag name p ++ X) d
            = .ok ⟨X, d, name, p.kind.val⟩ := by
  simp only [Payload.wf, wfChildren_append, Bool.and_eq_true] at hwf
  obtain ⟨hwf1, hwft⟩ := hwf
  obtain ⟨hname, hp, hwf2⟩ := wfChildren_cons hwft
  refine ⟨?_, fun f d X hd hf => readTag_unbound f name p d X hp hname hd hf⟩
  -- lengths of the two streams
  have hlen := length_encodeChildren_insert cs1 cs2 name p
  have hdepth := depth_le_length p
  have htag : (encodeTag name p).length = 1 + (encodeString name).length + p.encode.length := by
    simp [encodeTag]; omega
  obtain ⟨F, hF⟩ : ∃ F, (encodeTag rootName (.compound (cs1 ++ (name, p) :: cs2)) ++ rest).length
      = F + 1 :=
    ⟨(encodeTag rootName (.compound (cs1 ++ (name, p) :: cs2)) ++ rest).length - 1, by
      simp only [encodeTag, List.cons_append, List.length_cons]; omega⟩
  have hFle : (encodeTag rootName (.compound (cs1 ++ cs2)) ++ rest).length + 1 ≤ F + 1 + 1 := by
    rw [← hF]
    simp only [encodeTag, Payload.encode, List.cons_append, List.length_cons, List.length_append,
      hlen]
    omega
  have hFp : p.depth ≤ F := by
    have : (encodeTag rootName (.compound (cs1 ++ (name, p) :: cs2)) ++ rest).length
        ≥ p.encode.length + 2 := by
      simp only [encodeTag, Payload.encode, List.cons_append, List.length_cons,
        List.length_append, hlen]
      omega
    omega
  -- the decode of the stream without the tag, under the budget of the longer stream
  rw [Read] at hbase
  cases hb : readTag ulower ((encodeTag rootName (.compound (cs1 ++ cs2)) ++ rest).length + 1)
      TAG_UNKNOWN (encodeTag rootName (.compound (cs1 ++ cs2)) ++ rest) (some data) with
  | error e => rw [hb] at hbase; cases hbase
  | ok o =>
    rw [hb] at hbase
    have hb2 := stable_ok (readTag_stable _ (F + 1 + 1) hFle _ _ _) hb
    rw [readTag_named (F + 1) rootName _ rest (some data) hroot] at hb2
    simp only [kind_compound, tagBody_compound, Payload.encode] at hb2
    cases hc : ReadCompound (readTag ulower (F + 1)) (Payload.encodeChildren (cs1 ++ cs2) ++ rest)
        (valueAt (some data) (fieldOf ulower (some data) rootName)) with
    | error e => rw [hc] at hb2; cases hb2
    | ok x =>
      rw [hc] at hb2
      have hskip : ∀ (d : Option Val) (X : Stream), fieldOf ulower d name = none →
          readTag ulower (F + 1) TAG_UNKNOWN (encodeTag name p ++ X) d
            = .ok ⟨X, d, name, p.kind.val⟩ :=
        fun d X hf => readTag_unbound F name p d X hp hname (by omega) hf
      have hins := compoundLoop_insert (respects_readTag (F + 1)) (keepsShape_readTag (F + 1))
        name p cs2 rest hskip cs1 hwf1 _ _ x hunbound hc
      have hc2 : ReadCompound (readTag ulower (F + 1))
          (Payload.encodeChildren (cs1 ++ (name, p) :: cs2) ++ rest)
          (valueAt (some data) (fieldOf ulower (some data) rootName)) = .ok x := by
        apply ReadCompound_of_loop _ _ _ _ _ hins
        simp only [List.length_append, hlen]
        omega
      rw [Read, hF, readTag_named (F + 1) rootName _ rest (some data) hroot]
      simp only [kind_compound, tagBody_compound, Payload.encode, hc2]
      simp only [Except.ok.injEq] at hb2
      rw [← hb2] at hbase
      exact hbase


/-- C3, at the end-to-end compound with the List "Extra" inserted between its two children. -/
theorem unknown_tag_is_skipped_witness :
    (ascii "Level").length < 2 ^ 15
      ∧ (Payload.compound ([(ascii "ByteTest", Payload.byte 0x7f)]
            ++ (ascii "Extra", extraTree)
              :: [(ascii "Nested", Payload.compound
                    [(ascii "Name", .string (ascii "Eggbert")),
                     (ascii "Value", .float 0x3f000000)])])).wf = true
      ∧ fieldOf noUnicode
          (valueAt (some (level 0 [] 0)) (fieldOf noUnicode (some (level 0 [] 0)) (ascii "Level")))
          (ascii "Extra") = none
      ∧ Read noUnicode (encodeTag (ascii "Level")
            (.compound ([(ascii "ByteTest", Payload.byte 0x7f)]
              ++ [(ascii "Nested", Payload.compound
                    [(ascii "Name", .string (ascii "Eggbert")),
                     (ascii "Value", .float 0x3f000000)])])) ++ [])
          (level 0 [] 0)
        = .ok ([], level 0x7f (ascii "Eggbert") 0x3f000000)
      ∧ Read noUnicode (encodeTag (ascii "Level")
            (.compound ([(ascii "ByteTest", Payload.byte 0x7f)]
              ++ (ascii "Extra", extraTree)
                :: [(ascii "Nested", Payload.compound
                      [(ascii "Name", .string (ascii "Eggbert")),
                       (ascii "Value", .float 0x3f000000)])])) ++ [])
          (level 0 [] 0)
        = .ok ([], level 0x7f (ascii "Eggbert") 0x3f000000) :=
  ⟨by decide, by decide, rfl, rfl,
    (unknown_tag_is_skipped noUnicode (ascii "Level") (ascii "Extra")
      [(ascii "ByteTest", Payload.byte 0x7f)]
      [(ascii "Nested", Payload.compound
          [(ascii "Name", .string (ascii "Eggbert")), (ascii "Value", .float 0x3f000000)])]
      extraTree [] [] (level 0 [] 0) (level 0x7f (ascii "Eggbert") 0x3f000000)
      (by decide) (by decide) rfl rfl).1⟩

/-! ## Helpers for stores and zero-count lists -/

theorem storeScalar_same (data : Val) (sel : Sel) (fv temp : Val)
    (hfv : data.at sel = some fv) (hty : GoType.same fv.type temp.type = true) :
    storeScalar (some data) (some sel) temp = some (data.put sel temp) := by
  simp [storeScalar, valueAt, hfv, GoType.AssignableTo, hty, setAt]

theorem fieldPut_fieldAt (fs : List (FieldOf Val)) (i : Nat) (x : Val)
    (h : fieldAt fs i = some x) : fieldPut fs i x = fs := by
  induction fs generalizing i with
  | nil => rfl
  | cons f fs ih =>
    cases i with
    | zero =>
      simp only [fieldAt, Option.some.injEq] at h
      subst h
      rfl
    | succ i => simp [fieldPut, ih i (by simpa [fieldAt] using h)]

theorem put_at (d : Val) (sel : Sel) (x : Val) (h : d.at sel = some x) : d.put sel x = d := by
  cases sel with
  | self =>
    simp only [Val.at, Option.some.injEq] at h
    simp [Val.put, h]
  | field i =>
    cases d <;> simp [Val.at] at h
    simp [Val.put, fieldPut_fieldAt _ i x h]

theorem setAt_valueAt (d : Option Val) (sel : Option Sel) : setAt d sel (valueAt d sel) = d := by
  cases d with
  | none => cases sel <;> rfl
  | some dv =>
    cases sel with
    | none => rfl
    | some s =>
      cases h : dv.at s with
      | none => simp [setAt, valueAt, h]
      | some x => simp [setAt, valueAt, h, put_at dv s x h]


theorem fieldEntries_cons {ulower : Name → Name}
    (k : Nat) (f : FieldOf Val) (fs : List (FieldOf Val)) :
    fieldEntries ulower k (f :: fs)
      = (fieldKey ulower f, Sel.field k) :: fieldEntries ulower (k + 1) fs := rfl

theorem mapGet_fieldEntries_none {ulower : Name → Name}
    (k : Nat) (fs : List (FieldOf Val)) (key : Name)
    (h : key ∉ fs.map (fieldKey ulower)) : mapGet (fieldEntries ulower k fs) key = none := by
  induction fs generalizing k with
  | nil => rfl
  | cons f fs ih =>
    simp only [List.map_cons, List.mem_cons, not_or] at h
    rw [fieldEntries_cons, mapGet, ih (k + 1) h.2]
    simp [Ne.symm h.1]

theorem toLower_ascii (ulower : Name → Name) (s : Name) (h : isAscii s = true) :
    toLower ulower s = asciiLower s := by
  simp [toLower, h]

theorem tagBody_other {ulower : Name → Name}
    (rt : TagType → Stream → Option Val → Res TagOut) (name : Name)
    (k : TagType) (r : Stream) (d : Option Val) (hk : k = 0 ∨ 12 ≤ k) :
    tagBody ulower rt name k r d = .ok ⟨r, d, name, k⟩ := by
  rcases hk with hk | hk
  · subst hk
    rfl
  · unfold tagBody
    split
    all_goals first
      | rfl
      | exact absurd hk (by decide)

theorem listLoop_zero_type {ulower : Name → Name} (f : Nat) (e : GoType) :
    ∀ (n : Nat) (items : List Val) (rest : Stream),
      listLoop (readTag ulower (f + 1)) 0 n rest (some (.slice e items))
        = .ok (rest, some (.slice e (items ++ List.replicate n (zero e))))
  | 0, items, rest => by simp [listLoop]
  | n + 1, items, rest => by
    have h : readTag ulower (f + 1) 0 rest (some (zero e)) = .ok ⟨rest, some (zero e), [], 0⟩ := by
      rw [readTag, readHeader_known 0 rest (by decide)]
      exact tagBody_other _ _ 0 _ _ (Or.inl rfl)
    simp only [listLoop, listStep, Val.type, GoType.Elem, h, Option.getD_some, Append]
    rw [listLoop_zero_type f e n]
    simp [List.replicate_succ]


/-! ## Fixed-width integers -/

/-- C11. On a stream that holds at least `w` bytes (`w` = 2, 4, 8), `ReadShort`, `ReadInt` and
`ReadLong` consume exactly `w` bytes and return the two's-complement value of the big-endian
number `b0 * 256^(w-1) + ... + b(w-1)`: that number, minus `2^(8w)` when `b0 >= 128`. -/
theorem fixed_width_signed (b0 b1 b2 b3 b4 b5 b6 b7 : Byte) (rest : Stream) :
    ReadShort (b0 :: b1 :: rest)
        = .ok ((b0.val * 256 + b1.val : Int) - (if 128 ≤ b0.val then 2 ^ 16 else 0), rest)
      ∧ ReadInt (b0 :: b1 :: b2 :: b3 :: rest)
        = .ok ((b0.val * 256 ^ 3 + b1.val * 256 ^ 2 + b2.val * 256 + b3.val : Int)
            - (if 128 ≤ b0.val then 2 ^ 32 else 0), rest)
      ∧ ReadLong (b0 :: b1 :: b2 :: b3 :: b4 :: b5 :: b6 :: b7 :: rest)
        = .ok ((b0.val * 256 ^ 7 + b1.val * 256 ^ 6 + b2.val * 256 ^ 5 + b3.val * 256 ^ 4
              + b4.val * 256 ^ 3 + b5.val * 256 ^ 2 + b6.val * 256 + b7.val : Int)
            - (if 128 ≤ b0.val then 2 ^ 64 else 0), rest) := by
  have h0 := b0.isLt
  have h1 := b1.isLt
  have h2 := b2.isLt
  have h3 := b3.isLt
  have h4 := b4.isLt
  have h5 := b5.isLt
  have h6 := b6.isLt
  have h7 := b7.isLt
  refine ⟨?_, ?_, ?_⟩
  · simp only [ReadShort, binaryRead, readFull, beNat, List.foldl, toSigned]
    refine congrArg (fun x => Except.ok (x, rest)) ?_
    split_ifs <;> omega
  · simp only [ReadInt, binaryRead, readFull, beNat, List.foldl, toSigned]
    refine congrArg (fun x => Except.ok (x, rest)) ?_
    split_ifs <;> omega
  · simp only [ReadLong, binaryRead, readFull, beNat, List.foldl, toSigned]
    refine congrArg (fun x => Except.ok (x, rest)) ?_
    split_ifs <;> omega


/-! ## The Byte tag -/

/-- C12 does not hold: on the byte 200 `ReadByte` returns 200, not 200 - 256; a Byte tag bound
to a `byte` field stores 200, and bound to an `int8` field it stores nothing. -/
theorem ReadByte_200_is_not_negative :
    ReadByte [200, 1] = .ok (200, [1])
      ∧ ((200 : Byte).val : Int) ≠ 200 - 256
      ∧ Read noUnicode ([10, 0, 1, 84] ++ [1, 0, 1, 88, 200] ++ [0]) (byteTarget 0)
        = .ok ([], byteTarget 200)
      ∧ Read noUnicode ([10, 0, 1, 84] ++ [1, 0, 1, 88, 200] ++ [0]) (int8Target 0)
        = .ok ([], int8Target 0) :=
  ⟨rfl, by decide, rfl, rfl⟩

/-- C12, amended. On a stream holding at least one byte `b`, `ReadByte` consumes exactly one
byte and returns the unsigned value of `b`, in the range 0..255, and a Byte tag whose name
resolves to a slot of type `byte` (uint8) stores that unsigned value in the slot. -/
theorem ReadByte_unsigned (ulower : Name → Name)
    (fuel : Nat) (b old : Byte) (name : Name) (rest : Stream)
    (data : Val) (sel : Sel)
    (hn : name.length < 2 ^ 15)
    (hsel : fieldOf ulower (some data) name = some sel)
    (hslot : data.at sel = some (.uint8 old)) :
    ReadByte (b :: rest) = .ok (b, rest)
      ∧ b.val ≤ 255
      ∧ readTag ulower (fuel + 1) TAG_UNKNOWN (encodeTag name (.byte b) ++ rest) (some data)
        = .ok ⟨rest, some (data.put sel (.uint8 b)), name, TAG_BYTE⟩ := by
  refine ⟨rfl, by have := b.isLt; omega, ?_⟩
  rw [readTag_named fuel name _ rest (some data) hn,
    tagBody_scalar _ name (.byte b) (.uint8 b) rest _ rfl rfl, hsel,
    storeScalar_same data sel (.uint8 old) (.uint8 b) hslot rfl]
  rfl

/-- C12 amended, at the byte 200 and the field `X` of `struct T { X byte }`. -/
theorem ReadByte_unsigned_witness :
    (ascii "X").length < 2 ^ 15
      ∧ fieldOf noUnicode (some (byteTarget 0)) (ascii "X") = some (Sel.field 0)
      ∧ (byteTarget 0).at (Sel.field 0) = some (.uint8 0)
      ∧ (ReadByte (200 :: [0]) = .ok (200, [0])
        ∧ (200 : Byte).val ≤ 255
        ∧ readTag noUnicode (0 + 1) TAG_UNKNOWN (encodeTag (ascii "X") (.byte 200) ++ [0])
            (some (byteTarget 0))
          = .ok ⟨[0], some ((byteTarget 0).put (Sel.field 0) (.uint8 200)), ascii "X",
              TAG_BYTE⟩) :=
  ⟨by decide, rfl, rfl,
    ReadByte_unsigned noUnicode 0 200 0 (ascii "X") [0] (byteTarget 0) (Sel.field 0)
      (by decide) rfl rfl⟩


/-! ## Which field a name resolves to -/

/-- A name outside ASCII. For every `ulower` that maps both "ÅB" (`c3 85 42`) and "åb"
(`c3 a5 62`) to "åb", as `strings.ToLower` does, the tag name "ÅB" resolves to the field
aliased "åb", and `Read` stores the Int tag "ÅB" = 5 of a root compound in that field. -/
theorem unicode_name_binds (ulower : Name → Name)
    (hname : ulower [0xc3, 0x85, 0x42] = [0xc3, 0xa5, 0x62])
    (hkey : ulower [0xc3, 0xa5, 0x62] = [0xc3, 0xa5, 0x62]) :
    fieldOf ulower (some (.struct (ascii "T") [⟨ascii "X", [0xc3, 0xa5, 0x62], .int32 0⟩]))
        [0xc3, 0x85, 0x42] = some (Sel.field 0)
      ∧ Read ulower (encodeTag [] (.compound [([0xc3, 0x85, 0x42], .int 5)]))
          (.struct (ascii "T") [⟨ascii "X", [0xc3, 0xa5, 0x62], .int32 0⟩])
        = .ok ([], .struct (ascii "T") [⟨ascii "X", [0xc3, 0xa5, 0x62], .int32 5⟩]) := by
  have hsel : fieldOf ulower
      (some (.struct (ascii "T") [⟨ascii "X", [0xc3, 0xa5, 0x62], .int32 0⟩]))
      [0xc3, 0x85, 0x42] = some (Sel.field 0) := by
    show mapGet [(asciiLower (ascii "T"), Sel.self), (ulower [0xc3, 0xa5, 0x62], Sel.field 0)]
      (ulower [0xc3, 0x85, 0x42]) = some (Sel.field 0)
    rw [hname, hkey]
    rfl
  refine ⟨hsel, ?_⟩
  have hloop : ReadCompound (readTag ulower 1)
      (Payload.encodeChildren [([0xc3, 0x85, 0x42], .int 5)] ++ [])
      (some (.struct (ascii "T") [⟨ascii "X", [0xc3, 0xa5, 0x62], .int32 0⟩]))
      = .ok ([], some (.struct (ascii "T") [⟨ascii "X", [0xc3, 0xa5, 0x62], .int32 5⟩])) := by
    apply ReadCompound_of_loop _ 2
    · rw [encodeChildren_cons_append, encodeChildren_nil_append]
      rw [compoundLoop_cons _ _ _ _ _
        ((readTag_named 0 _ _ _ _ (by decide)).trans
          (tagBody_scalar _ _ (.int 5) (.int32 5) _ _ rfl rfl)) (by simp [TAG_END])]
      simp only [hsel]
      exact compoundLoop_end 0 0 [] _
    · decide
  have h := @readTag_named ulower 1 [] (.compound [([0xc3, 0x85, 0x42], .int 5)]) []
    (some (.struct (ascii "T") [⟨ascii "X", [0xc3, 0xa5, 0x62], .int32 0⟩])) (by decide)
  simp only [kind_compound, tagBody_compound, Payload.encode] at h
  rw [show fieldOf ulower (some (Val.struct (ascii "T")
      [⟨ascii "X", [0xc3, 0xa5, 0x62], .int32 0⟩])) [] = some Sel.self from rfl] at h
  simp only [valueAt, Val.at, hloop, setAt, Val.put] at h
  rw [List.append_nil] at h
  have hst := stable_ok (readTag_stable 2
    ((encodeTag [] (.compound [([0xc3, 0x85, 0x42], .int 5)])).length + 1) (by decide)
    TAG_UNKNOWN _ _) h
  rw [Read, hst]
  rfl

/-- C15 does not hold for a slot that holds elements: after a List of count 0 the slot holds
what it held before, here one element, and not the empty sequence. -/
theorem empty_list_keeps_prior_elements :
    ReadList (readTag noUnicode 1) [3, 0, 0, 0, 0, 9] (some (Val.slice .int32 [Val.int32 4]))
        = .ok ([9], some (Val.slice .int32 [Val.int32 4]))
      ∧ Read noUnicode ([10, 0, 1, 84] ++ [9, 0, 1, 76, 3, 0, 0, 0, 0] ++ [0])
          (listTarget [Val.int32 4])
        = .ok ([], listTarget [Val.int32 4]) :=
  ⟨rfl, rfl⟩

theorem ReadList_zero (rt : TagType → Stream → Option Val → Res TagOut) (t : Byte)
    (rest : Stream) (data : Option Val) :
    ReadList rt (t :: 0 :: 0 :: 0 :: 0 :: rest) data = .ok (rest, data) := by
  have h : toSigned 32 (beNat [(0 : Byte), 0, 0, 0]) = 0 := by decide
  simp [ReadList, ReadByte, ReadInt_cons4, h, listLoop]

/-- C15, amended. For every element-type byte, decoding a List payload whose count is 0 reads
only the element-type byte and the four count bytes and succeeds; the value returned for a
sequence slot is the slot's previous content, and the tag leaves the target as it was: the slot
holds the empty sequence when it was empty before, and its previous elements otherwise. -/
theorem list_count_zero (ulower : Name → Name)
    (fuel : Nat) (t : Byte) (name : Name) (rest : Stream) (data : Val)
    (e : GoType) (items : List Val)
    (hn : name.length < 2 ^ 15) :
    ReadList (readTag ulower fuel) (t :: 0 :: 0 :: 0 :: 0 :: rest) (some (.slice e items))
        = .ok (rest, some (.slice e items))
      ∧ readTag ulower (fuel + 1) TAG_UNKNOWN
          ((9 : Byte) :: (encodeString name ++ (t :: 0 :: 0 :: 0 :: 0 :: rest))) (some data)
        = .ok ⟨rest, some data, name, TAG_LIST⟩ := by
  refine ⟨ReadList_zero _ t rest _, ?_⟩
  rw [readTag, readHeader_named 9 name _ (by decide) hn]
  have h9 : ((9 : Byte) : Nat) = 9 := rfl
  simp only [h9, tagBody_list, ReadList_zero, setAt_valueAt]
  rfl

/-- C15 amended, at element type String and a slot `L []int32` holding one element. -/
theorem list_count_zero_witness :
    (ascii "L").length < 2 ^ 15
      ∧ (ReadList (readTag noUnicode 0) (8 :: 0 :: 0 :: 0 :: 0 :: [0])
            (some (.slice .int32 [Val.int32 4]))
          = .ok ([0], some (.slice .int32 [Val.int32 4]))
        ∧ readTag noUnicode (0 + 1) TAG_UNKNOWN
            ((9 : Byte) :: (encodeString (ascii "L") ++ (8 :: 0 :: 0 :: 0 :: 0 :: [0])))
            (some (listTarget [Val.int32 4]))
          = .ok ⟨[0], some (listTarget [Val.int32 4]), ascii "L", TAG_LIST⟩) :=
  ⟨by decide,
    list_count_zero noUnicode 0 8 (ascii "L") [0] (listTarget [Val.int32 4]) .int32
      [Val.int32 4] (by decide)⟩


/-! ## The empty string -/

/-- C16. On a stream whose next two bytes are the length prefix 0, whatever follows it
(nothing included), `ReadString` succeeds, returns the empty string and consumes exactly the
two bytes of the prefix. -/
theorem ReadString_empty (rest : Stream) :
    ReadString ((0 : Byte) :: 0 :: rest) = .ok ([], rest) := by
  simp [ReadString, ReadShort, binaryRead, readFull, beNat, toSigned, makeLen, readOnce]


/-! ## Tag types without a payload -/

/-- C20. When the type `readTag` dispatches on is none of 1..11 (it is 0 or at least 12), the
body of `readTag` reads nothing, leaves the target untouched and returns. A tag header with a
type byte from 12 to 255 inside a compound has its type byte and name consumed, and the
compound loop goes on with the next tag. A List with element type 0 and any count `N` consumes
its five header bytes only and appends `N` zero values to a bound sequence slot. -/
theorem other_tag_types (ulower : Name → Name)
    (fuel n N k : Nat) (b : Byte) (name : Name) (rest r : Stream)
    (d : Option Val) (e : GoType) (items : List Val)
    (rt : TagType → Stream → Option Val → Res TagOut)
    (hk : k = 0 ∨ 12 ≤ k) (hb : 12 ≤ b.val) (hn : name.length < 2 ^ 15) (hN : N < 2 ^ 31) :
    tagBody ulower rt name k r d = .ok ⟨r, d, name, k⟩
      ∧ readTag ulower (fuel + 1) TAG_UNKNOWN (b :: (encodeString name ++ rest)) d
        = .ok ⟨rest, d, name, b.val⟩
      ∧ compoundLoop (readTag ulower (fuel + 1)) (n + 1) (b :: (encodeString name ++ rest)) d
        = compoundLoop (readTag ulower (fuel + 1)) n rest d
      ∧ ReadList (readTag ulower (fuel + 1)) ((0 : Byte) :: (beBytes 4 N ++ rest))
          (some (.slice e items))
        = .ok (rest, some (.slice e (items ++ List.replicate N (zero e)))) := by
  have h2 : readTag ulower (fuel + 1) TAG_UNKNOWN (b :: (encodeString name ++ rest)) d
      = .ok ⟨rest, d, name, b.val⟩ := by
    rw [readTag, readHeader_named b name rest (by simp only [TAG_END]; omega) hn]
    exact tagBody_other _ _ _ _ _ (Or.inr hb)
  refine ⟨tagBody_other rt name k r d hk, h2, ?_, ?_⟩
  · exact compoundLoop_cons _ n _ d _ h2 (by show b.val ≠ 0; omega)
  · simp only [ReadList, ReadByte]
    rw [ReadInt_beBytes N rest hN]
    simp only [Int.toNat_ofNat, Fin.val_zero]
    exact listLoop_zero_type fuel e N items rest

/-- C20, at the type byte 200, the name "odd", and a List of End with count 3. -/
theorem other_tag_types_witness :
    ((200 : Nat) = 0 ∨ 12 ≤ 200) ∧ 12 ≤ (200 : Byte).val ∧ (ascii "odd").length < 2 ^ 15
      ∧ 3 < 2 ^ 31
      ∧ (tagBody noUnicode (readTag noUnicode 0) (ascii "odd") 200 [7] (some (intTarget 1))
          = .ok ⟨[7], some (intTarget 1), ascii "odd", 200⟩
        ∧ readTag noUnicode (0 + 1) TAG_UNKNOWN
            ((200 : Byte) :: (encodeString (ascii "odd") ++ [0]))
            (some (intTarget 1))
          = .ok ⟨[0], some (intTarget 1), ascii "odd", (200 : Byte).val⟩
        ∧ compoundLoop (readTag noUnicode (0 + 1)) (1 + 1)
            ((200 : Byte) :: (encodeString (ascii "odd") ++ [0])) (some (intTarget 1))
          = compoundLoop (readTag noUnicode (0 + 1)) 1 [0] (some (intTarget 1))
        ∧ ReadList (readTag noUnicode (0 + 1)) ((0 : Byte) :: (beBytes 4 3 ++ [0]))
            (some (.slice .int32 [Val.int32 9]))
          = .ok ([0], some (.slice .int32
              ([Val.int32 9] ++ List.replicate 3 (zero .int32))))) :=
  ⟨Or.inr (by decide), by decide, by decide, by decide,
    other_tag_types noUnicode 0 1 3 200 200 (ascii "odd") [0] [7] (some (intTarget 1)) .int32
      [Val.int32 9] (readTag noUnicode 0) (Or.inr (by decide)) (by decide) (by decide) (by decide)⟩


/-! ## Readers consume, and never add to the stream -/

theorem consumes_mono {α : Type} {k j : Nat} {r : Stream} {res : Res (α × Stream)}
    (h : consumes k r res) (hj : j ≤ k) : consumes j r res := by
  cases res with
  | error e => exact h
  | ok x => obtain ⟨a, r2⟩ := x; simp only [consumes] at h ⊢; omega

theorem readFull_consumes (n : Nat) (r : Stream) : consumes n r (readFull n r) := by
  induction n generalizing r with
  | zero => simp [readFull, consumes]
  | succ n ih =>
    cases r with
    | nil => simp [readFull, consumes]
    | cons b r =>
      have h := ih r
      simp only [readFull]
      cases hr : readFull n r with
      | error e => rw [hr] at h; exact h
      | ok x =>
        obtain ⟨bs, r2⟩ := x
        rw [hr] at h
        simp only [consumes, List.length_cons] at h ⊢
        omega

theorem binaryRead_consumes (w : Nat) (r : Stream) : consumes w r (binaryRead w r) := by
  have h := readFull_consumes w r
  simp only [binaryRead]
  cases hr : readFull w r with
  | error e => rw [hr] at h; exact h
  | ok x => obtain ⟨bs, r2⟩ := x; rw [hr] at h; exact h

theorem ReadByte_consumes (r : Stream) : consumes 1 r (ReadByte r) := by
  cases r <;> simp [ReadByte, consumes]

theorem ReadShort_consumes (r : Stream) : consumes 2 r (ReadShort r) := by
  have h := binaryRead_consumes 2 r
  simp only [ReadShort]
  cases hr : binaryRead 2 r with
  | error e => rw [hr] at h; exact h
  | ok x => obtain ⟨bs, r2⟩ := x; rw [hr] at h; exact h

theorem ReadInt_consumes (r : Stream) : consumes 4 r (ReadInt r) := by
  have h := binaryRead_consumes 4 r
  simp only [ReadInt]
  cases hr : binaryRead 4 r with
  | error e => rw [hr] at h; exact h
  | ok x => obtain ⟨bs, r2⟩ := x; rw [hr] at h; exact h

theorem ReadLong_consumes (r : Stream) : consumes 8 r (ReadLong r) := by
  have h := binaryRead_consumes 8 r
  simp only [ReadLong]
  cases hr : binaryRead 8 r with
  | error e => rw [hr] at h; exact h
  | ok x => obtain ⟨bs, r2⟩ := x; rw [hr] at h; exact h

theorem readOnce_consumes (n : Nat) (r : Stream) : consumes 0 r (readOnce n r) := by
  unfold readOnce
  split
  · simp [consumes]
  · split
    · simp [consumes]
    · simp [consumes]

theorem makeLen_ne_fuel (n : Int) : makeLen n ≠ .error .fuel := by
  unfold makeLen
  split <;> simp

theorem ReadByteArray_consumes (r : Stream) : consumes 4 r (ReadByteArray r) := by
  have h := ReadInt_consumes r
  simp only [ReadByteArray]
  cases hr : ReadInt r with
  | error e => rw [hr] at h; exact h
  | ok x =>
    obtain ⟨n, r1⟩ := x
    rw [hr] at h
    simp only
    cases hm : makeLen n with
    | error e => have := makeLen_ne_fuel n; rw [hm] at this; simpa [consumes] using this
    | ok len =>
      have h2 := readOnce_consumes len r1
      simp only
      cases ho : readOnce len r1 with
      | error e => rw [ho] at h2; exact h2
      | ok y =>
        obtain ⟨bs, r2⟩ := y
        rw [ho] at h2
        simp only [consumes] at h h2 ⊢
        omega

theorem ReadString_consumes (r : Stream) : consumes 2 r (ReadString r) := by
  have h := ReadShort_consumes r
  simp only [ReadString]
  cases hr : ReadShort r with
  | error e => rw [hr] at h; exact h
  | ok x =>
    obtain ⟨n, r1⟩ := x
    rw [hr] at h
    simp only
    cases hm : makeLen n with
    | error e => have := makeLen_ne_fuel n; rw [hm] at this; simpa [consumes] using this
    | ok len =>
      have h2 := readOnce_consumes len r1
      simp only
      cases ho : readOnce len r1 with
      | error e => rw [ho] at h2; exact h2
      | ok y =>
        obtain ⟨bs, r2⟩ := y
        rw [ho] at h2
        simp only [consumes] at h h2 ⊢
        omega

theorem readInts_consumes (n : Nat) (r : Stream) (acc : List Int) :
    consumes 0 r (readInts n r acc) := by
  induction n generalizing r acc with
  | zero => simp [readInts, consumes]
  | succ n ih =>
    have h := ReadInt_consumes r
    simp only [readInts]
    cases hr : ReadInt r with
    | error e => rw [hr] at h; exact h
    | ok x =>
      obtain ⟨v, r1⟩ := x
      rw [hr] at h
      have h2 := ih r1 (acc ++ [v])
      simp only
      cases ho : readInts n r1 (acc ++ [v]) with
      | error e => rw [ho] at h2; exact h2
      | ok y =>
        obtain ⟨xs, r2⟩ := y
        rw [ho] at h2
        simp only [consumes] at h h2 ⊢
        omega

theorem ReadIntArray_consumes (r : Stream) : consumes 4 r (ReadIntArray r) := by
  have h := ReadInt_consumes r
  simp only [ReadIntArray]
  cases hr : ReadInt r with
  | error e => rw [hr] at h; exact h
  | ok x =>
    obtain ⟨n, r1⟩ := x
    rw [hr] at h
    simp only
    cases hm : makeLen n with
    | error e => have := makeLen_ne_fuel n; rw [hm] at this; simpa [consumes] using this
    | ok len =>
      have h2 := readInts_consumes len r1 []
      simp only
      cases ho : readInts len r1 [] with
      | error e => rw [ho] at h2; exact h2
      | ok y =>
        obtain ⟨bs, r2⟩ := y
        rw [ho] at h2
        simp only [consumes] at h h2 ⊢
        omega


theorem compoundLoop_shrinks {rt : TagType → Stream → Option Val → Res TagOut}
    (hrt : Shrinks rt) :
    ∀ (n : Nat) (r : Stream) (d : Option Val) (x : Stream × Option Val),
      compoundLoop rt n r d = .ok x → x.1.length < r.length
  | 0, _, _, _, h => by simp [compoundLoop] at h
  | n + 1, r, d, x, h => by
    simp only [compoundLoop] at h
    cases hr : rt TAG_UNKNOWN r d with
    | error e => rw [hr] at h; cases h
    | ok o =>
      rw [hr] at h
      simp only at h
      have h1 := (hrt _ _ _ _ hr).2 rfl
      split at h
      · cases h; exact h1
      · have := compoundLoop_shrinks hrt n _ _ x h
        omega

theorem listStep_shrinks {rt : TagType → Stream → Option Val → Res TagOut}
    (hrt : Shrinks rt) (t : TagType) (r : Stream) (d : Option Val) (x : Stream × Option Val)
    (h : listStep rt t r d = .ok x) : x.1.length ≤ r.length := by
  cases d with
  | none =>
    simp only [listStep] at h
    cases hr : rt t r none with
    | error e => rw [hr] at h; cases h
    | ok o => rw [hr] at h; cases h; exact (hrt _ _ _ _ hr).1
  | some dv =>
    simp only [listStep] at h
    cases he : dv.type.Elem with
    | error e => rw [he] at h; cases h
    | ok et =>
      rw [he] at h
      simp only at h
      cases hr : rt t r (some (zero et)) with
      | error e => rw [hr] at h; cases h
      | ok o =>
        rw [hr] at h
        simp only at h
        cases ha : Append dv (o.data.getD (zero et)) with
        | error e => rw [ha] at h; cases h
        | ok d2 => rw [ha] at h; cases h; exact (hrt _ _ _ _ hr).1

theorem listLoop_shrinks {rt : TagType → Stream → Option Val → Res TagOut}
    (hrt : Shrinks rt) (t : TagType) :
    ∀ (n : Nat) (r : Stream) (d : Option Val) (x : Stream × Option Val),
      listLoop rt t n r d = .ok x → x.1.length ≤ r.length
  | 0, _, _, _, h => by simp only [listLoop] at h; cases h; exact Nat.le_refl _
  | n + 1, r, d, x, h => by
    simp only [listLoop] at h
    cases hs : listStep rt t r d with
    | error e => rw [hs] at h; cases h
    | ok y =>
      rw [hs] at h
      have h1 := listStep_shrinks hrt t r d y hs
      have h2 := listLoop_shrinks hrt t n _ _ x h
      omega

theorem ReadList_shrinks {rt : TagType → Stream → Option Val → Res TagOut}
    (hrt : Shrinks rt) (r : Stream) (d : Option Val) (x : Stream × Option Val)
    (h : ReadList rt r d = .ok x) : x.1.length + 5 ≤ r.length := by
  simp only [ReadList] at h
  have hb := ReadByte_consumes r
  cases hr : ReadByte r with
  | error e => rw [hr] at h; cases h
  | ok b =>
    obtain ⟨t, r1⟩ := b
    rw [hr] at h hb
    simp only at h
    have hi := ReadInt_consumes r1
    cases hri : ReadInt r1 with
    | error e => rw [hri] at h; cases h
    | ok i =>
      obtain ⟨len, r2⟩ := i
      rw [hri] at h hi
      have := listLoop_shrinks hrt _ _ _ _ x h
      simp only [consumes] at hb hi
      omega

theorem tagBody_shrinks {ulower : Name → Name} {rt : TagType → Stream → Option Val → Res TagOut}
    (hrt : Shrinks rt) (name : Name) (k : TagType) (r : Stream) (d : Option Val) (o : TagOut)
    (h : tagBody ulower rt name k r d = .ok o) : o.r.length ≤ r.length := by
  have c1 := ReadByte_consumes r
  have c2 := ReadShort_consumes r
  have c3 := ReadInt_consumes r
  have c4 := ReadLong_consumes r
  have c5 := binaryRead_consumes 4 r
  have c6 := binaryRead_consumes 8 r
  have c7 := ReadByteArray_consumes r
  have c8 := ReadString_consumes r
  have c9 := ReadIntArray_consumes r
  unfold tagBody at h
  split at h
  all_goals dsimp only [ReadFloat, ReadDouble] at h
  case h_10 =>
    cases hc : ReadCompound rt r (valueAt d (fieldOf ulower d name)) with
    | error e => rw [hc] at h; cases h
    | ok x =>
      rw [hc] at h
      cases h
      exact Nat.le_of_lt (compoundLoop_shrinks hrt _ _ _ x hc)
  case h_11 =>
    cases hc : ReadList rt r (valueAt d (fieldOf ulower d name)) with
    | error e => rw [hc] at h; cases h
    | ok x =>
      rw [hc] at h
      cases h
      have := ReadList_shrinks hrt _ _ x hc
      show x.1.length ≤ r.length
      omega
  case h_12 => cases h; exact Nat.le_refl _
  all_goals
    split at h
    · cases h
    · rename_i heq
      cases h
      simp only [heq, consumes] at c1 c2 c3 c4 c5 c6 c7 c8 c9
      dsimp only
      omega

theorem readHeader_shrinks (tt : TagType) (r : Stream) (hd : Header)
    (h : readHeader tt r = .ok hd) :
    match hd with
    | .stop r1 => r1.length < r.length
    | .tag _ _ r1 => r1.length ≤ r.length ∧ (tt = TAG_UNKNOWN → r1.length + 3 ≤ r.length) := by
  unfold readHeader at h
  split at h
  · rename_i htt
    have hb := ReadByte_consumes r
    cases hr : ReadByte r with
    | error e => rw [hr] at h; cases h
    | ok x =>
      obtain ⟨b, r1⟩ := x
      rw [hr] at h hb
      simp only at h
      simp only [consumes] at hb
      split at h
      · cases h
        show r1.length < r.length
        omega
      · have hs := ReadString_consumes r1
        cases hrs : ReadString r1 with
        | error e => rw [hrs] at h; cases h
        | ok y =>
          obtain ⟨nm, r2⟩ := y
          rw [hrs] at h hs
          cases h
          simp only [consumes] at hs
          show r2.length ≤ r.length ∧ (tt = TAG_UNKNOWN → r2.length + 3 ≤ r.length)
          exact ⟨by omega, fun _ => by omega⟩
  · rename_i htt
    cases h
    exact ⟨Nat.le_refl _, fun hx => absurd hx htt⟩

theorem shrinks_readTag {ulower : Name → Name} : ∀ f : Nat, Shrinks (readTag ulower f)
  | 0 => fun _ _ _ _ h => by simp [readTag] at h
  | f + 1 => fun tt r d o h => by
    rw [readTag] at h
    cases hh : readHeader tt r with
    | error e => rw [hh] at h; cases h
    | ok hd =>
      rw [hh] at h
      have hs := readHeader_shrinks tt r hd hh
      cases hd with
      | stop r1 =>
        cases h
        simp only at hs
        exact ⟨Nat.le_of_lt hs, fun _ => hs⟩
      | tag name k r1 =>
        simp only at hs h
        have hb := tagBody_shrinks (shrinks_readTag f) name k r1 d o h
        exact ⟨by omega, fun htt => by have := hs.2 htt; omega⟩


/-! ## The budget of `Read` is never exhausted -/

theorem need_le (tt : TagType) (r : Stream) : need tt r ≤ r.length + 1 := by
  unfold need
  split <;> omega

theorem compoundLoop_ne_fuel {rt : TagType → Stream → Option Val → Res TagOut} {F : Nat}
    (hs : Shrinks rt) (hf : Suffices rt F) :
    ∀ (n : Nat) (r : Stream) (d : Option Val), r.length < F → r.length < n →
      compoundLoop rt n r d ≠ .error .fuel
  | 0, _, _, _, hn => by omega
  | n + 1, r, d, hF, hn => by
    simp only [compoundLoop]
    cases hr : rt TAG_UNKNOWN r d with
    | error e =>
      have := hf TAG_UNKNOWN r d (by simpa [need] using hF)
      rw [hr] at this
      simpa using this
    | ok o =>
      simp only
      have h1 := (hs _ _ _ _ hr).2 rfl
      split
      · simp
      · exact compoundLoop_ne_fuel hs hf n o.r o.data (by omega) (by omega)

theorem Elem_ne_fuel (t : GoType) : t.Elem ≠ .error .fuel := by
  cases t <;> simp [GoType.Elem]

theorem Append_ne_fuel (a b : Val) : Append a b ≠ .error .fuel := by
  cases a <;> simp [Append]

theorem listStep_ne_fuel {rt : TagType → Stream → Option Val → Res TagOut} {F : Nat}
    (hf : Suffices rt F) (t : TagType) (r : Stream) (d : Option Val) (hF : r.length + 1 < F) :
    listStep rt t r d ≠ .error .fuel := by
  have hneed : need t r < F := Nat.lt_of_le_of_lt (need_le t r) hF
  cases d with
  | none =>
    simp only [listStep]
    cases hr : rt t r none with
    | error e =>
      have := hf t r none hneed
      rw [hr] at this
      simpa using this
    | ok o => simp
  | some dv =>
    simp only [listStep]
    cases he : dv.type.Elem with
    | error e =>
      have := Elem_ne_fuel dv.type
      rw [he] at this
      simpa using this
    | ok et =>
      simp only
      cases hr : rt t r (some (zero et)) with
      | error e =>
        have := hf t r (some (zero et)) hneed
        rw [hr] at this
        simpa using this
      | ok o =>
        simp only
        cases ha : Append dv (o.data.getD (zero et)) with
        | error e =>
          have := Append_ne_fuel dv (o.data.getD (zero et))
          rw [ha] at this
          simpa using this
        | ok d2 => simp

theorem listLoop_ne_fuel {rt : TagType → Stream → Option Val → Res TagOut} {F : Nat}
    (hs : Shrinks rt) (hf : Suffices rt F) (t : TagType) :
    ∀ (n : Nat) (r : Stream) (d : Option Val), r.length + 1 < F →
      listLoop rt t n r d ≠ .error .fuel
  | 0, _, _, _ => by simp [listLoop]
  | n + 1, r, d, hF => by
    simp only [listLoop]
    cases hst : listStep rt t r d with
    | error e =>
      have := listStep_ne_fuel hf t r d hF
      rw [hst] at this
      simpa using this
    | ok y =>
      have h1 := listStep_shrinks hs t r d y hst
      exact listLoop_ne_fuel hs hf t n y.1 y.2 (by omega)

theorem ReadList_ne_fuel {rt : TagType → Stream → Option Val → Res TagOut} {F : Nat}
    (hs : Shrinks rt) (hf : Suffices rt F) (r : Stream) (d : Option Val) (hF : r.length < F) :
    ReadList rt r d ≠ .error .fuel := by
  simp only [ReadList]
  have hb := ReadByte_consumes r
  cases hr : ReadByte r with
  | error e => rw [hr] at hb; simpa [consumes] using hb
  | ok b =>
    obtain ⟨t, r1⟩ := b
    rw [hr] at hb
    simp only
    have hi := ReadInt_consumes r1
    cases hri : ReadInt r1 with
    | error e => rw [hri] at hi; simpa [consumes] using hi
    | ok i =>
      obtain ⟨len, r2⟩ := i
      rw [hri] at hi
      simp only [consumes] at hb hi
      exact listLoop_ne_fuel hs hf _ _ r2 d (by omega)

theorem tagBody_ne_fuel {ulower : Name → Name}
    {rt : TagType → Stream → Option Val → Res TagOut} {F : Nat}
    (hs : Shrinks rt) (hf : Suffices rt F) (name : Name) (k : TagType) (r : Stream)
    (d : Option Val) (hF : r.length < F) : tagBody ulower rt name k r d ≠ .error .fuel := by
  have c1 := ReadByte_consumes r
  have c2 := ReadShort_consumes r
  have c3 := ReadInt_consumes r
  have c4 := ReadLong_consumes r
  have c5 := binaryRead_consumes 4 r
  have c6 := binaryRead_consumes 8 r
  have c7 := ReadByteArray_consumes r
  have c8 := ReadString_consumes r
  have c9 := ReadIntArray_consumes r
  intro h
  unfold tagBody at h
  split at h
  all_goals dsimp only [ReadFloat, ReadDouble] at h
  case h_10 =>
    have hc := compoundLoop_ne_fuel hs hf (r.length + 1) r (valueAt d (fieldOf ulower d name)) hF
      (by omega)
    cases hcc : ReadCompound rt r (valueAt d (fieldOf ulower d name)) with
    | error e =>
      rw [hcc] at h
      simp only [Except.error.injEq] at h
      subst h
      exact hc hcc
    | ok x => rw [hcc] at h; cases h
  case h_11 =>
    have hc := ReadList_ne_fuel hs hf r (valueAt d (fieldOf ulower d name)) hF
    cases hcc : ReadList rt r (valueAt d (fieldOf ulower d name)) with
    | error e =>
      rw [hcc] at h
      simp only [Except.error.injEq] at h
      subst h
      exact hc hcc
    | ok x => rw [hcc] at h; cases h
  case h_12 => cases h
  all_goals
    split at h
    · rename_i heq
      simp only [Except.error.injEq] at h
      subst h
      simp [heq, consumes] at c1 c2 c3 c4 c5 c6 c7 c8 c9
    · cases h

theorem readHeader_ne_fuel (tt : TagType) (r : Stream) : readHeader tt r ≠ .error .fuel := by
  unfold readHeader
  split
  · have hb := ReadByte_consumes r
    cases hr : ReadByte r with
    | error e => rw [hr] at hb; simpa [consumes] using hb
    | ok x =>
      obtain ⟨b, r1⟩ := x
      simp only
      split
      · simp
      · have hsn := ReadString_consumes r1
        cases hrs : ReadString r1 with
        | error e => rw [hrs] at hsn; simpa [consumes] using hsn
        | ok y => simp
  · simp

theorem suffices_readTag {ulower : Name → Name} : ∀ f : Nat, Suffices (readTag ulower f) f
  | 0 => fun _ _ _ h => by omega
  | f + 1 => fun tt r d hneed => by
    rw [readTag]
    cases hh : readHeader tt r with
    | error e =>
      have := readHeader_ne_fuel tt r
      rw [hh] at this
      simpa using this
    | ok hd =>
      have hsh := readHeader_shrinks tt r hd hh
      cases hd with
      | stop r1 => simp
      | tag name k r1 =>
        simp only at hsh ⊢
        apply tagBody_ne_fuel (shrinks_readTag f) (suffices_readTag f)
        unfold need at hneed
        split at hneed
        · rename_i htt
          have := hsh.2 htt
          omega
        · omega

/-- C18. For every finite stream and every target `Read` ends, with success or with a failure
of the program: the nesting budget `Read` starts with is never exhausted, and any larger
budget gives the same outcome. The reasons are the ones of the claim: a call of `readTag`
that reads a header returns a strictly shorter stream, so each iteration of the compound loop
consumes at least one byte or fails and the loop bound of `ReadCompound` is never reached; a
list that returns has consumed its five header bytes; and the list loop is a recursion on
the count. -/
theorem Read_terminates (ulower : Name → Name) (r : Stream) (data : Val) :
    Read ulower r data ≠ .error .fuel
      ∧ (∀ f : Nat, r.length < f →
          readTag ulower f TAG_UNKNOWN r (some data)
            = readTag ulower (r.length + 1) TAG_UNKNOWN r (some data))
      ∧ (∀ (f : Nat) (r1 : Stream) (d : Option Val) (o : TagOut),
          readTag ulower f TAG_UNKNOWN r1 d = .ok o → o.r.length < r1.length)
      ∧ (∀ (f : Nat) (r1 : Stream) (d : Option Val) (r2 : Stream) (v : Option Val),
          ReadList (readTag ulower f) r1 d = .ok (r2, v) → r2.length + 5 ≤ r1.length)
      ∧ (∀ (f : Nat) (r1 : Stream) (d : Option Val),
          r1.length < f → ReadCompound (readTag ulower f) r1 d ≠ .error .fuel) := by
  have h0 : readTag ulower (r.length + 1) TAG_UNKNOWN r (some data) ≠ .error .fuel :=
    suffices_readTag (r.length + 1) TAG_UNKNOWN r (some data) (by simp [need])
  refine ⟨?_, ?_, ?_, ?_, ?_⟩
  · rw [Read]
    cases hr : readTag ulower (r.length + 1) TAG_UNKNOWN r (some data) with
    | error e =>
      rw [hr] at h0
      simpa using h0
    | ok o => simp
  · intro f hf
    rcases readTag_stable (r.length + 1) f (by omega) TAG_UNKNOWN r (some data) with h | h
    · exact absurd h h0
    · exact h.symm
  · intro f r1 d o h
    exact (shrinks_readTag f _ _ _ _ h).2 rfl
  · intro f r1 d r2 v h
    exact ReadList_shrinks (shrinks_readTag f) r1 d (r2, v) h
  · intro f r1 d hf
    exact compoundLoop_ne_fuel (shrinks_readTag f) (suffices_readTag f) _ r1 d hf (by omega)


theorem fieldOf_type_name {ulower : Name → Name} (T : Name) (fs : List (FieldOf Val)) (n : Name)
    (h : toLower ulower n = toLower ulower T)
    (htype : toLower ulower T ∉ fs.map (fieldKey ulower)) :
    fieldOf ulower (some (.struct T fs)) n = some Sel.self := by
  have hnone := mapGet_fieldEntries_none 0 fs (toLower ulower T) htype
  by_cases hn : n = []
  · simp [fieldOf, hn]
  · simp [fieldOf, hn, StructFields, mapGet, hnone, h]

theorem ReadCompound_budget {ulower : Name → Name} (f g : Nat) (r : Stream) (d : Option Val)
    (hf : r.length < f) (hg : r.length < g) :
    ReadCompound (readTag ulower f) r d = ReadCompound (readTag ulower g) r d := by
  have nf := compoundLoop_ne_fuel (@shrinks_readTag ulower f) (@suffices_readTag ulower f)
    (r.length + 1) r d hf
    (by omega)
  have ng := compoundLoop_ne_fuel (@shrinks_readTag ulower g) (@suffices_readTag ulower g)
    (r.length + 1) r d hg
    (by omega)
  rcases Nat.le_total f g with hle | hle
  · rcases ReadCompound_stable (fun tt r d => readTag_stable f g hle tt r d) r d with h | h
    · exact absurd h nf
    · exact h
  · rcases ReadCompound_stable (fun tt r d => readTag_stable g f hle tt r d) r d with h | h
    · exact absurd h ng
    · exact h.symm

/-! ## The root tag named after the target's type -/

/-- C14. For a struct target of type name `T` with no field keyed by the lower case of `T`,
and a root Compound tag whose name equals `T` up to letter case (the two have the same lower
case under `strings.ToLower`; for ASCII names: they are equal up to the case of the letters `A`
to `Z`), `Read` binds the root tag to the target itself: its outcome is the outcome of
`ReadCompound` on the payload with the target as `data` (under any budget larger than the
payload is long), the children being decoded directly into the target's fields. -/
theorem root_binds_target (ulower : Name → Name)
    (T name : Name) (fs : List (FieldOf Val)) (body : Stream) (f : Nat)
    (hn : name.length < 2 ^ 15)
    (hname : toLower ulower name = toLower ulower T
      ∨ (isAscii name = true ∧ isAscii T = true ∧ asciiLower name = asciiLower T))
    (hkey : toLower ulower T ∉ fs.map (fieldKey ulower)) (hf : body.length < f) :
    Read ulower ((10 : Byte) :: (encodeString name ++ body)) (.struct T fs)
      = match ReadCompound (readTag ulower f) body (some (.struct T fs)) with
        | .error e => .error e
        | .ok (r2, v) => .ok (r2, v.getD (.struct T fs)) := by
  have hlow : toLower ulower name = toLower ulower T := by
    rcases hname with h | ⟨h1, h2, h3⟩
    · exact h
    · rw [toLower_ascii ulower name h1, toLower_ascii ulower T h2, h3]
  have hself := fieldOf_type_name T fs name hlow hkey
  rw [Read, readTag, readHeader_named 10 name body (by decide) hn]
  have h10 : ((10 : Byte) : Nat) = 10 := rfl
  simp only [h10, tagBody_compound, hself, valueAt, Val.at]
  rw [ReadCompound_budget _ f body _ (by
    simp only [List.length_cons, List.length_append]; omega) hf]
  cases ReadCompound (readTag ulower f) body (some (.struct T fs)) with
  | error e => rfl
  | ok x =>
    obtain ⟨r2, v⟩ := x
    cases v <;> rfl

/-- C14, at the root name "LEVEL" for the target type `Level`. -/
theorem root_binds_target_witness :
    (ascii "LEVEL").length < 2 ^ 15
      ∧ (toLower noUnicode (ascii "LEVEL") = toLower noUnicode (ascii "Level")
        ∨ (isAscii (ascii "LEVEL") = true ∧ isAscii (ascii "Level") = true
          ∧ asciiLower (ascii "LEVEL") = asciiLower (ascii "Level")))
      ∧ toLower noUnicode (ascii "Level") ∉
          [(⟨ascii "ByteTest", [], Val.uint8 0⟩ : FieldOf Val),
           ⟨ascii "Other", [], Val.int32 0⟩].map (fieldKey noUnicode)
      ∧ (Payload.compound [(ascii "ByteTest", .byte 7)]).encode.length < 100
      ∧ Read noUnicode ((10 : Byte) :: (encodeString (ascii "LEVEL")
            ++ (Payload.compound [(ascii "ByteTest", .byte 7)]).encode))
          (.struct (ascii "Level")
            [⟨ascii "ByteTest", [], Val.uint8 0⟩, ⟨ascii "Other", [], Val.int32 0⟩])
        = match ReadCompound (readTag noUnicode 100)
              (Payload.compound [(ascii "ByteTest", .byte 7)]).encode
              (some (.struct (ascii "Level")
                [⟨ascii "ByteTest", [], Val.uint8 0⟩, ⟨ascii "Other", [], Val.int32 0⟩])) with
          | .error e => .error e
          | .ok (r2, v) => .ok (r2, v.getD (.struct (ascii "Level")
              [⟨ascii "ByteTest", [], Val.uint8 0⟩, ⟨ascii "Other", [], Val.int32 0⟩])) :=
  ⟨by decide, Or.inr (by decide), by decide, by decide,
    root_binds_target noUnicode (ascii "Level") (ascii "LEVEL")
      [⟨ascii "ByteTest", [], Val.uint8 0⟩, ⟨ascii "Other", [], Val.int32 0⟩]
      (Payload.compound [(ascii "ByteTest", .byte 7)]).encode 100
      (by decide) (Or.inr (by decide)) (by decide) (by decide)⟩

theorem listLoop_append {ulower : Name → Name}
    (fuel : Nat) (t : Byte) (e : GoType) (rest : Stream) :
    ∀ (ps : List Payload) (prior : List Val), Payload.wfItems t ps = true →
      (∀ p ∈ ps, ∃ o, readTag ulower fuel t.val p.encode (some (zero e)) = .ok o) →
      listLoop (readTag ulower fuel) t.val ps.length (Payload.encodeItems ps ++ rest)
          (some (.slice e prior))
        = .ok (rest, some (.slice e (prior ++ ps.map (decodedItem ulower fuel t e))))
  | [], prior, _, _ => by simp [listLoop, Payload.encodeItems]
  | p :: ps, prior, hwf, hok => by
    obtain ⟨hk, hp, hps⟩ := wfItems_cons hwf
    obtain ⟨o, ho⟩ := hok p (List.mem_cons_self _ _)
    have hstep := (@respects_readTag ulower fuel).item p (some (zero e))
      (Payload.encodeItems ps ++ rest) hp
    rw [hk] at hstep
    rw [ho] at hstep
    have hd : decodedItem ulower fuel t e p = o.data.getD (zero e) := by
      simp only [decodedItem, ho]
    rw [encodeItems_cons_append]
    simp only [List.length_cons, listLoop, listStep, Val.type, GoType.Elem, hstep, withRest,
      Append]
    rw [listLoop_append fuel t e rest ps _ hps
      (fun q hq => hok q (List.mem_cons_of_mem _ hq))]
    simp [hd]

/-! ## Lists are appended -/

/-- C19. A well-formed List tag with `N` elements whose name resolves to a sequence slot
holding `prior` (`K` elements), each element decoding without failure into a fresh zero value
of the slot's element type: after `readTag` the slot holds `prior` followed by the `N` decoded
elements in stream order, so `K + N` elements, the first `K` being `prior` unchanged. The list
is appended to what the slot held. -/
theorem list_appends (ulower : Name → Name)
    (fuel : Nat) (name : Name) (t : Byte) (ps : List Payload) (rest : Stream)
    (data : Val) (sel : Sel) (e : GoType) (prior : List Val)
    (hn : name.length < 2 ^ 15) (hwf : (Payload.list t ps).wf = true)
    (hsel : fieldOf ulower (some data) name = some sel)
    (hslot : data.at sel = some (.slice e prior))
    (hitems : ∀ p ∈ ps, ∃ o, readTag ulower fuel t.val p.encode (some (zero e)) = .ok o) :
    readTag ulower (fuel + 1) TAG_UNKNOWN (encodeTag name (.list t ps) ++ rest) (some data)
        = .ok ⟨rest, some (data.put sel (.slice e (prior ++ ps.map (decodedItem ulower fuel t e)))),
            name, TAG_LIST⟩
      ∧ (prior ++ ps.map (decodedItem ulower fuel t e)).length = prior.length + ps.length
      ∧ (prior ++ ps.map (decodedItem ulower fuel t e)).take prior.length = prior := by
  simp only [Payload.wf, Bool.and_eq_true, decide_eq_true_eq] at hwf
  refine ⟨?_, by simp, by simp⟩
  rw [readTag_named fuel name _ rest (some data) hn]
  simp only [kind_list, tagBody_list, hsel, valueAt, hslot, Payload.encode, ReadList, ReadByte,
    List.cons_append, List.append_assoc]
  rw [ReadInt_beBytes _ _ hwf.1]
  simp only [Int.toNat_ofNat]
  rw [listLoop_append fuel t e rest ps prior hwf.2 hitems]
  rfl

/-- C19, at a slot `L []int32` holding one element and a List of two Ints; and two List tags
named "L" in one compound, the second extending the first. -/
theorem list_appends_witness :
    (ascii "L").length < 2 ^ 15
      ∧ (Payload.list 3 [.int 7, .int 8]).wf = true
      ∧ fieldOf noUnicode (some (listTarget [Val.int32 4])) (ascii "L") = some (Sel.field 0)
      ∧ (listTarget [Val.int32 4]).at (Sel.field 0) = some (.slice .int32 [Val.int32 4])
      ∧ (∀ p ∈ [Payload.int 7, Payload.int 8],
          ∃ o, readTag noUnicode 1 (3 : Byte).val p.encode (some (zero .int32)) = .ok o)
      ∧ readTag noUnicode (1 + 1) TAG_UNKNOWN
          (encodeTag (ascii "L") (.list 3 [.int 7, .int 8]) ++ [0])
          (some (listTarget [Val.int32 4]))
        = .ok ⟨[0], some ((listTarget [Val.int32 4]).put (Sel.field 0)
            (.slice .int32 ([Val.int32 4]
              ++ [Payload.int 7, Payload.int 8].map (decodedItem noUnicode 1 3 .int32)))),
            ascii "L", TAG_LIST⟩
      ∧ [Payload.int 7, Payload.int 8].map (decodedItem noUnicode 1 3 .int32)
        = [Val.int32 7, Val.int32 8]
      ∧ Read noUnicode (encodeTag (ascii "T") (.compound
            [(ascii "L", .list 3 [.int 7]), (ascii "L", .list 3 [.int 8])]))
          (listTarget [])
        = .ok ([], listTarget [Val.int32 7, Val.int32 8]) :=
  ⟨by decide, by decide, rfl, rfl,
    fun p hp => by
      simp only [List.mem_cons, List.mem_singleton, List.not_mem_nil, or_false] at hp
      rcases hp with rfl | rfl <;> exact ⟨_, rfl⟩,
    (list_appends noUnicode 1 (ascii "L") 3 [.int 7, .int 8] [0] (listTarget [Val.int32 4])
      (Sel.field 0) .int32 [Val.int32 4] (by decide) (by decide) rfl rfl
      (fun p hp => by
        simp only [List.mem_cons, List.mem_singleton, List.not_mem_nil, or_false] at hp
        rcases hp with rfl | rfl <;> exact ⟨_, rfl⟩)).1,
    rfl, rfl⟩

/-! ## Truncated streams -/

/-- C17, the code at a stream cut inside a string. The seven bytes of a root String tag with
the value "AB" decode with success; so do their first six bytes, one byte short: the missing
byte is read as 0 and the decode reports success. Only the first five bytes fail. -/
theorem truncated_stream_succeeds :
    Read noUnicode [8, 0, 0, 0, 2, 65, 66] (level 0 [] 0) = .ok ([], level 0 [] 0)
      ∧ Read noUnicode (List.take 6 [8, 0, 0, 0, 2, 65, 66]) (level 0 [] 0) = .ok ([], level 0 [] 0)
      ∧ Read noUnicode [8, 0, 0, 0, 2, 65, 66] (Val.string []) = .ok ([], Val.string [65, 66])
      ∧ Read noUnicode (List.take 6 [8, 0, 0, 0, 2, 65, 66]) (Val.string [])
          = .ok ([], Val.string [65, 0])
      ∧ Read noUnicode (List.take 5 [8, 0, 0, 0, 2, 65, 66]) (Val.string []) = .error .io :=
  ⟨rfl, rfl, rfl, rfl, rfl⟩


end GoNBT
